import Mathlib

/-!
Verification of the pricing-recorder extraction core.

The definitions below are a shallow embedding of the repository sources
`pricing_recorder/parser.py`, `pricing_recorder/models.py` and
`pricing_recorder/utils.py`.  Names follow the Python sources.  The
markup-query dependency (BeautifulSoup select / get_text / attribute access)
is modelled as a small DOM with a structural-selector interpreter, matching
the capability interface the spec describes for that external collaborator.
Python string operations (strip, lower, startswith, rstrip, split) are
modelled character-wise on ASCII data, matching their behaviour on the
inputs this program handles.
-/

/-! ### Python string primitives -/

/-- Python whitespace characters recognised by str.strip(). -/
def pyIsSpace (c : Char) : Bool :=
  c == ' ' || c == '\t' || c == '\n' || c == '\r' || c == '\x0b' || c == '\x0c'

/-- Drop leading and trailing characters satisfying p, as Python strip family. -/
def trimBy (p : Char → Bool) (l : List Char) : List Char :=
  ((l.dropWhile p).reverse.dropWhile p).reverse

/-- Python str.strip() with no argument. -/
def pyStrip (s : String) : String :=
  String.mk (trimBy pyIsSpace s.data)

/-- Python str.lower(), character-wise (ASCII). -/
def pyLower (s : String) : String :=
  String.mk (s.data.map Char.toLower)

/-- Python str.startswith. -/
def pyStartsWith (s pre : String) : Bool :=
  pre.data.isPrefixOf s.data

/-- Substring search helper: does the needle occur at any position. -/
def containsAux (needle : List Char) : List Char → Bool
  | [] => needle.isPrefixOf []
  | c :: rest => needle.isPrefixOf (c :: rest) || containsAux needle rest

/-- Python substring membership test (needle in hay). -/
def strContains (hay needle : String) : Bool :=
  containsAux needle.data hay.data

/-- Python str.rstrip(chars): drop trailing characters belonging to the set. -/
def pyRStrip (s : String) (set : List Char) : String :=
  String.mk ((s.data.reverse.dropWhile (fun c => set.contains c)).reverse)

/-- Python s.split(sep, 1) for a one-character separator: a list of one or
two pieces depending on whether the separator occurs. -/
def pySplit1 (s : String) (c : Char) : List String :=
  let a := s.data.takeWhile (fun d => d ≠ c)
  let b := s.data.dropWhile (fun d => d ≠ c)
  match b with
  | [] => [s]
  | _ :: rest => [String.mk a, String.mk rest]

/-- Python truthiness of an optional string: None and the empty string are falsy. -/
def truthy : Option String → Bool
  | none => false
  | some s => s ≠ ""

/-- Python `a or b` on optional strings. -/
def pyOr (a b : Option String) : Option String :=
  if truthy a then a else b

/-- Python `a or b` where a is a plain string and b a default. -/
def pyOrStr (a b : String) : String :=
  if a = "" then b else a

/-- Python list indexing with a default, used where the source guards the
index by a length check. -/
def listGetD (l : List String) (i : Nat) (d : String) : String :=
  (l.get? i).getD d

/-- Python list indexing in an error monad: models the fact that an
out-of-range index raises IndexError. -/
def listGetE (l : List String) (i : Nat) : Except String String :=
  match l.get? i with
  | some v => Except.ok v
  | none => Except.error "IndexError"

/-! ### Insertion-ordered string dictionaries (Python dict model)

A Python dict is modelled as an insertion-ordered association list with
unique keys.  Lookup returns the first match; assignment replaces the value
in place when the key exists and appends otherwise -/

/-- Python `d.get(k)` / `d[k]` lookup. -/
def assocGet (l : List (String × α)) (k : String) : Option α :=
  match l with
  | [] => none
  | (k2, v) :: rest => if k2 = k then some v else assocGet rest k

/-- Python `k in d`. -/
def hasKey (l : List (String × α)) (k : String) : Bool :=
  (assocGet l k).isSome

/-- Python `d[k] = v`: replace in place if present, else append. -/
def assocSet (l : List (String × α)) (k : String) (v : α) : List (String × α) :=
  match l with
  | [] => [(k, v)]
  | (k2, v2) :: rest => if k2 = k then (k2, v) :: rest else (k2, v2) :: assocSet rest k v

/-- Python `d.update(pairs)` folded left-to-right. -/
def assocUpdate (l : List (String × α)) (pairs : List (String × α)) : List (String × α) :=
  pairs.foldl (fun acc kv => assocSet acc kv.1 kv.2) l

/-- Lexicographic comparison of character lists by code point (the order
Python uses to compare strings). -/
def charListLt : List Char → List Char → Bool
  | [], [] => false
  | [], _ :: _ => true
  | _ :: _, [] => false
  | a :: as2, b :: bs =>
      if a.toNat < b.toNat then true
      else if b.toNat < a.toNat then false
      else charListLt as2 bs

/-- Python string less-than by code point. -/
def strLt (a b : String) : Bool := charListLt a.data b.data

/-- Comparison used by Python sorted() on (key, value) string pairs:
lexicographic on the pair. -/
def pairLe (a b : String × String) : Bool :=
  if a.1 = b.1 then !(strLt b.2 a.2) else strLt a.1 b.1

/-- Insertion step for the sort used by Product.as_flat_dict. -/
def insertPair (x : String × String) : List (String × String) → List (String × String)
  | [] => [x]
  | y :: rest => if pairLe x y then x :: y :: rest else y :: insertPair x rest

/-- Python sorted() on a list of (key, value) string pairs. -/
def sortPairs : List (String × String) → List (String × String)
  | [] => []
  | x :: rest => insertPair x (sortPairs rest)

/-! ### DOM model of the markup-query collaborator

The spec describes the markup dependency as a minimal capability interface:
find descendants matching a structural predicate, read an attribute, read
trimmed text.  `Node` is an element tree; selectors are represented
structurally (one constant per CSS selector string appearing in parser.py). -/

mutual
inductive Node where
  | elem (tag : String) (classes : List String) (attrs : List (String × String)) (children : NodeList)
  | text (s : String)
inductive NodeList where
  | nil
  | cons (n : Node) (rest : NodeList)
end

/-- Build a NodeList from a Lean list. -/
def nlist : List Node → NodeList
  | [] => .nil
  | n :: rest => .cons n (nlist rest)

/-- Attribute lookup on an element (None on a text node or a missing name). -/
def getAttr (n : Node) (name : String) : Option String :=
  match n with
  | .elem _ _ attrs _ => assocGet attrs name
  | .text _ => none

mutual
/-- All strings of descendant text nodes, in document order. -/
def textsOf : Node → List String
  | .elem _ _ _ ch => textsOfL ch
  | .text s => [s]

def textsOfL : NodeList → List String
  | .nil => []
  | .cons n rest => textsOf n ++ textsOfL rest
end

/-- BeautifulSoup get_text(sep, strip=True): strip every descendant string,
drop the ones that become empty, join with the separator. -/
def getText (sep : String) (n : Node) : String :=
  String.intercalate sep (((textsOf n).map pyStrip).filter (fun s => s ≠ ""))

/-- One attribute condition inside a simple selector. -/
inductive AttrCond where
  | eqv (name value : String)
  | containsV (name value : String)

/-- A simple selector: optional tag name, required classes, attribute conditions. -/
structure SimpleSel where
  tag : Option String
  classes : List String
  conds : List AttrCond

/-- A compound selector: the target simple selector plus required ancestors,
listed innermost-first. -/
structure CompSel where
  target : SimpleSel
  ancestors : List SimpleSel

/-- A selector group (comma-separated alternatives). -/
def Selector := List CompSel

def matchCond (n : Node) : AttrCond → Bool
  | .eqv name value => getAttr n name == some value
  | .containsV name value =>
      match getAttr n name with
      | some v => strContains v value
      | none => false

def matchSimple (n : Node) (s : SimpleSel) : Bool :=
  match n with
  | .elem tag classes _ _ =>
      (match s.tag with | some t => t == tag | none => true)
        && s.classes.all (fun c => classes.contains c)
        && s.conds.all (fun c => matchCond n c)
  | .text _ => false

/-- Match the required ancestor chain (innermost-first) against the actual
ancestor list (nearest-first). -/
def ancMatch : List SimpleSel → List Node → Bool
  | [], _ => true
  | _ :: _, [] => false
  | s :: rest, a :: as2 => (matchSimple a s && ancMatch rest as2) || ancMatch (s :: rest) as2

def matchComp (n : Node) (anc : List Node) (c : CompSel) : Bool :=
  matchSimple n c.target && ancMatch c.ancestors anc

mutual
/-- Descendants of a node (excluding itself) in document order, each paired
with its ancestor chain (nearest-first); anc is the chain above the node. -/
def nodeDesc : Node → List Node → List (Node × List Node)
  | .elem t c a ch, anc => listDesc ch (.elem t c a ch :: anc)
  | .text _, _ => []

def listDesc : NodeList → List Node → List (Node × List Node)
  | .nil, _ => []
  | .cons n rest, anc => (n, anc) :: (nodeDesc n anc ++ listDesc rest anc)
end

/-- BeautifulSoup element.select(selector): matching descendants in document order. -/
def selectAll (sel : Selector) (root : Node) : List Node :=
  ((nodeDesc root []).filter (fun p => sel.any (fun c => matchComp p.1 p.2 c))).map (fun p => p.1)

/-- BeautifulSoup element.select_one(selector). -/
def selectOne (sel : Selector) (root : Node) : Option Node :=
  (selectAll sel root).head?

/-- Selector "div.col.d-flex.flex-column.border.rounded.px-3.py-3" (the
product-card selector of parse_manufacturer_products). -/
def selCard : Selector :=
  [⟨⟨some "div", ["col", "d-flex", "flex-column", "border", "rounded", "px-3", "py-3"], []⟩, []⟩]

/-- Selector "form input[name=item]". -/
def selFormInputItem : Selector :=
  [⟨⟨some "input", [], [.eqv "name" "item"]⟩, [⟨some "form", [], []⟩]⟩]

/-- Selector ".moreInfoButton". -/
def selMoreInfoButton : Selector :=
  [⟨⟨none, ["moreInfoButton"], []⟩, []⟩]

/-- Selector "p.productDescription.font-weight-bold". -/
def selDescriptionBold : Selector :=
  [⟨⟨some "p", ["productDescription", "font-weight-bold"], []⟩, []⟩]

/-- Selector "p.productDescription". -/
def selDescription : Selector :=
  [⟨⟨some "p", ["productDescription"], []⟩, []⟩]

/-- Selector ".productPrice". -/
def selPrice : Selector :=
  [⟨⟨none, ["productPrice"], []⟩, []⟩]

/-- Selector ".inStock, .outStock, .productStock". -/
def selStock : Selector :=
  [⟨⟨none, ["inStock"], []⟩, []⟩, ⟨⟨none, ["outStock"], []⟩, []⟩, ⟨⟨none, ["productStock"], []⟩, []⟩]

/-- Selector "table". -/
def selTable : Selector := [⟨⟨some "table", [], []⟩, []⟩]

/-- Selector "tr". -/
def selTr : Selector := [⟨⟨some "tr", [], []⟩, []⟩]

/-- Selector "td". -/
def selTd : Selector := [⟨⟨some "td", [], []⟩, []⟩]

/-- Selector "a[href*=itemsearch=]". -/
def selAnchorItemsearch : Selector :=
  [⟨⟨some "a", [], [.containsV "href" "itemsearch="]⟩, []⟩]

/-- Selector "img[src*=/wce/thumbnails/]". -/
def selImgThumb : Selector :=
  [⟨⟨some "img", [], [.containsV "src" "/wce/thumbnails/"]⟩, []⟩]

/-- Selector "div.col-6". -/
def selCol6 : Selector := [⟨⟨some "div", ["col-6"], []⟩, []⟩]

/-! ### utils.py -/

/-- Character class [a-z0-9] of the slug regex. -/
def isSlugChar (c : Char) : Bool :=
  ('a' ≤ c && c ≤ 'z') || ('0' ≤ c && c ≤ '9')

/-- re.sub of runs of characters outside [a-z0-9] by a single underscore.
The flag records whether the previous character belonged to such a run. -/
def collapseRuns (inRun : Bool) : List Char → List Char
  | [] => []
  | c :: rest =>
      if isSlugChar c then c :: collapseRuns false rest
      else if inRun then collapseRuns true rest
      else '_' :: collapseRuns true rest

/-- Python str.strip(underscore). -/
def stripUnderscores (l : List Char) : List Char :=
  trimBy (fun c => c == '_') l

/-- slugify_key from utils.py: strip, lower, collapse non-alphanumeric runs
to single underscores, strip boundary underscores, fall back to "value". -/
def slugify_key (s : String) : String :=
  let r := stripUnderscores (collapseRuns false ((trimBy pyIsSpace s.data).map Char.toLower))
  if r.isEmpty then "value" else String.mk r

/-! ### models.py -/

/-- Product from models.py.  collected_at is the isoformat timestamp set at
construction by the wall-clock collaborator; it is carried as an opaque
string and never mutated. -/
structure Product where
  manufacturer : String
  item_number : Option String := none
  model : Option String := none
  description : Option String := none
  price_text : Option String := none
  stock_status : Option String := none
  inventory_by_location : List (String × String) := []
  detail_url : Option String := none
  image_url : Option String := none
  extra_fields : List (String × String) := []
  collected_at : String := ""
deriving DecidableEq

/-- Product.as_flat_dict: the nine base entries in order, then an
inventory_-keyed entry per sorted inventory item, then an info_-keyed entry
per sorted extra field, each written with dict assignment. -/
def as_flat_dict (p : Product) : List (String × String) :=
  let base : List (String × String) :=
    [("collected_at", p.collected_at),
     ("manufacturer", pyOrStr p.manufacturer ""),
     ("item_number", (p.item_number.getD "")),
     ("model", (p.model.getD "")),
     ("description", (p.description.getD "")),
     ("price_text", (p.price_text.getD "")),
     ("stock_status", (p.stock_status.getD "")),
     ("detail_url", (p.detail_url.getD "")),
     ("image_url", (p.image_url.getD ""))]
  let withInv := (sortPairs p.inventory_by_location).foldl
    (fun acc kv => assocSet acc ("inventory_" ++ slugify_key kv.1) kv.2) base
  (sortPairs p.extra_fields).foldl
    (fun acc kv => assocSet acc ("info_" ++ slugify_key kv.1) kv.2) withInv

/-! ### parser.py: module constants and collaborators -/

/-- _LOGIN_TEXTS from parser.py. -/
def LOGIN_TEXTS : List String := ["log in", "sign in"]

/-- _FIELD_PREFIXES from parser.py, in source (dict insertion) order:
lowered label pattern to canonical field name. -/
def fieldLabelTable : List (String × String) :=
  [("map:", "MAP"), ("msrp:", "MSRP"), ("dealer:", "Dealer"),
   ("your price:", "Your Price"), ("sale price:", "Sale Price"),
   ("special price:", "Special Price"), ("price:", "Price")]

/-- _PRICE_FIELD_KEYS from parser.py.  The source stores these in a Python
set whose iteration order is unspecified; the model fixes the literal order
of the source text.  No property proved below depends on this order. -/
def priceFieldKeys : List String :=
  ["Dealer", "Your Price", "Price", "Sale Price", "Special Price"]

/-- Modelled from the spec: constants.py (DEFAULT_BASE_URL) is imported by
parser.py but absent from the repository snapshot; the spec describes it
only as a process-wide default base-URL constant.  Its concrete value is
irrelevant to every property proved in this file. -/
def DEFAULT_BASE_URL : String := "https://distributor.example/"

/-- Models the Python standard-library collaborator urllib.parse.urljoin
for the URL shapes this program produces: an absolute URL is returned
unchanged, a root-relative path is joined to the scheme-and-host of the
base, and any other relative reference is appended to the base (the caller
always passes a base ending in a slash). -/
def urljoin (base url : String) : String :=
  if url = "" then base
  else if strContains url "://" then url
  else if pyStartsWith url "/" then
    match base.splitOn "://" with
    | sch :: rest :: _ => sch ++ "://" ++ ((rest.splitOn "/").headD "") ++ url
    | _ => url
  else base ++ url

/-! ### parser.py: card extractors -/

/-- _first_truthy from parser.py over optional strings. -/
def first_truthy : List (Option String) → Option String
  | [] => none
  | v :: rest => if truthy v then v else first_truthy rest

/-- _extract_item_number. -/
def extract_item_number (card : Node) : Option String :=
  match (selectOne selFormInputItem card).bind (fun f => getAttr f "value") with
  | some v => some (pyStrip v)
  | none =>
      match (selectOne selMoreInfoButton card).bind (fun b => getAttr b "data-item") with
      | some v => some (pyStrip v)
      | none => none

/-- _extract_description. -/
def extract_description (card : Node) : Option String :=
  match selectOne selDescriptionBold card with
  | some d => some (getText "" d)
  | none => none

/-- _extract_model: first description-class element whose stripped text
starts (case-insensitively) with the model label; the remainder after the
first colon, trimmed.  The colon index is guarded by the label test. -/
def modelScan : List Node → Option String
  | [] => none
  | para :: rest =>
      let text := getText "" para
      if pyStartsWith (pyLower text) "model:" then
        some (pyStrip (listGetD (pySplit1 text ':') 1 ""))
      else modelScan rest

def extract_model (card : Node) : Option String :=
  modelScan (selectAll selDescription card)

/-- _extract_price. -/
def extract_price (card : Node) : Option String :=
  match selectOne selPrice card with
  | none => none
  | some price =>
      let attr_value := first_truthy
        ((["data-price", "data-content", "title", "aria-label"]).map (fun a => getAttr price a))
      let avd := attr_value.getD ""
      if truthy attr_value && !(LOGIN_TEXTS.contains (pyLower (pyStrip avd))) then
        some (pyStrip avd)
      else
        let text := getText " " price
        if text ≠ "" && !(LOGIN_TEXTS.contains (pyLower text)) then some text
        else none

/-- _extract_stock. -/
def extract_stock (card : Node) : Option String :=
  match selectOne selStock card with
  | some badge => some (getText "" badge)
  | none => none

/-- Cell texts of one table row. -/
def rowCells (row : Node) : List String :=
  (selectAll selTd row).map (fun cell => getText "" cell)

/-- Fold step of _extract_inventory over one row: rows with a cell count
other than two fall through; an empty location after stripping trailing
colons and spaces contributes nothing. -/
def inventoryRow (inv : List (String × String)) (row : Node) : List (String × String) :=
  match rowCells row with
  | [c0, c1] =>
      let location := pyRStrip c0 [':', ' ']
      if location ≠ "" then assocSet inv location c1 else inv
  | _ => inv

/-- _extract_inventory. -/
def extract_inventory (card : Node) : List (String × String) :=
  match selectOne selTable card with
  | none => []
  | some t => (selectAll selTr t).foldl inventoryRow []

/-- _extract_detail_url.  The moreInfoButton data attribute overrides the
item number passed by the caller before the fallback URL is synthesized. -/
def extract_detail_url (card : Node) (item_number : Option String) (base_url : String) :
    Option String :=
  let item2 :=
    match (selectOne selMoreInfoButton card).bind (fun l => getAttr l "data-item") with
    | some v => some (pyStrip v)
    | none => item_number
  match (selectOne selAnchorItemsearch card).bind (fun a => getAttr a "href") with
  | some href => some (urljoin base_url href)
  | none =>
      if truthy item2 then
        some (urljoin base_url
          ("default.cfm?itemsearch=" ++ item2.getD "" ++ "&page=products&searchcode=N"))
      else none

/-- _extract_image_url. -/
def extract_image_url (card : Node) (base_url : String) : Option String :=
  match (selectOne selImgThumb card).bind (fun i => getAttr i "src") with
  | some src => some (urljoin base_url src)
  | none => none

/-- The info column of _extract_extra_fields: the first col-6 division
containing a price element, else the first containing a description-class
element. -/
def findInfoColumn (card : Node) : Option Node :=
  match (selectAll selCol6 card).find? (fun col => (selectOne selPrice col).isSome) with
  | some col => some col
  | none => (selectAll selCol6 card).find? (fun col => (selectOne selDescription col).isSome)

/-- First canonical label whose pattern starts the lowered line. -/
def findFieldLabel (lower : String) : Option String :=
  (fieldLabelTable.find? (fun pl => pyStartsWith lower pl.1)).map (fun pl => pl.2)

/-- Fold step of _extract_extra_fields over one labelled line. -/
def extraLine (fields : List (String × String)) (para : Node) : List (String × String) :=
  let text := getText "" para
  if text = "" then fields
  else
    let lower := pyLower text
    if pyStartsWith lower "model:" then fields
    else if lower = "log in to see pricing" then fields
    else
      match findFieldLabel lower with
      | some label => assocSet fields label (pyStrip (listGetD (pySplit1 text ':') 1 ""))
      | none => assocSet fields text ""

/-- _extract_extra_fields. -/
def extract_extra_fields (card : Node) : List (String × String) :=
  match findInfoColumn card with
  | none => []
  | some col => (selectAll selDescription col).foldl extraLine []

/-- _derive_price_from_fields: first price-like key with a truthy value. -/
def derivePriceScan (fields : List (String × String)) : List String → Option String
  | [] => none
  | key :: rest =>
      match assocGet fields key with
      | some v => if v ≠ "" then some v else derivePriceScan fields rest
      | none => derivePriceScan fields rest

def derive_price_from_fields (fields : List (String × String)) : Option String :=
  derivePriceScan fields priceFieldKeys

/-! ### parser.py: identity and merge resolver -/

/-- _merge_products: fold the secondary card record into the primary.
The identifier is adopted only when the primary lacks one; each scalar text
field is adopted only when the primary value is absent or blank; the
inventory union keeps only truthy incoming values; the extra-field union
overwrites a shared key only with a truthy value.  price_text is not
touched here (it is handled by the price-precedence step of the loop). -/
def mergeScalar (current incoming : Option String) : Option String :=
  if (!truthy current || pyStrip (current.getD "") = "") && truthy incoming then incoming
  else current

def mergeProducts (primary secondary : Product) : Product :=
  { primary with
    item_number :=
      if !truthy primary.item_number && truthy secondary.item_number then secondary.item_number
      else primary.item_number,
    model := mergeScalar primary.model secondary.model,
    description := mergeScalar primary.description secondary.description,
    stock_status := mergeScalar primary.stock_status secondary.stock_status,
    detail_url := mergeScalar primary.detail_url secondary.detail_url,
    image_url := mergeScalar primary.image_url secondary.image_url,
    inventory_by_location :=
      assocUpdate primary.inventory_by_location
        (secondary.inventory_by_location.filter (fun kv => kv.2 ≠ "")),
    extra_fields :=
      assocUpdate primary.extra_fields
        (secondary.extra_fields.filter
          (fun kv => kv.2 ≠ "" || !hasKey primary.extra_fields kv.1)) }

/-- Does an optional price read as a login sentinel (evaluated only when
the value is truthy, matching the Python conditional expression). -/
def isLoginPrice (o : Option String) : Bool :=
  if truthy o then LOGIN_TEXTS.contains (pyLower (o.getD "")) else false

/-- The price-precedence step of parse_manufacturer_products (the body of
the merge branch after _merge_products): returns the updated primary and
the updated price-from-fields flag. -/
def priceStep (existing : Product) (existing_from_fields : Bool)
    (incoming_price : Option String) (price_from_fields : Bool) : Product × Bool :=
  let incoming_is_login := isLoginPrice incoming_price
  if truthy incoming_price then
    if !truthy existing.price_text || isLoginPrice existing.price_text then
      if !incoming_is_login then
        ({ existing with price_text := incoming_price }, price_from_fields)
      else (existing, existing_from_fields)
    else if existing_from_fields && !price_from_fields && !incoming_is_login then
      ({ existing with price_text := incoming_price }, false)
    else (existing, existing_from_fields)
  else (existing, existing_from_fields)

/-! ### parser.py: listing assembler -/

/-- The per-card record construction of the loop body (lines 38 to 66):
run every extractor, then derive a price from the extra fields when the
dedicated price is falsy, recording the derivation in the flag. -/
def buildProduct (manufacturer base_url : String) (card : Node) : Product × Bool :=
  let item_number := extract_item_number card
  let description := extract_description card
  let model := extract_model card
  let price0 := extract_price card
  let stock_status := extract_stock card
  let inventory := extract_inventory card
  let detail_url := extract_detail_url card item_number base_url
  let image_url := extract_image_url card base_url
  let extra_fields := extract_extra_fields card
  let pricePair :=
    if !truthy price0 then
      match derive_price_from_fields extra_fields with
      | some d => (some d, true)
      | none => (price0, false)
    else (price0, false)
  ({ manufacturer := manufacturer,
     item_number := item_number,
     model := model,
     description := description,
     price_text := pricePair.1,
     stock_status := stock_status,
     inventory_by_location := inventory,
     detail_url := detail_url,
     image_url := image_url,
     extra_fields := extra_fields,
     collected_at := "" }, pricePair.2)

/-- The mutable state of the assembler loop: the insertion-ordered keyed
dictionary (Product plus price-from-fields flag) and the unmatched list. -/
structure AsmState where
  products : List (String × (Product × Bool))
  unmatched : List Product
deriving DecidableEq

/-- One iteration of the assembler loop over a card. -/
def processCard (manufacturer base_url : String) (st : AsmState) (card : Node) : AsmState :=
  let pb := buildProduct manufacturer base_url card
  let product := pb.1
  let price_from_fields := pb.2
  let key := pyOr product.item_number product.detail_url
  if truthy key then
    let k := key.getD ""
    match assocGet st.products k with
    | some entry =>
        let existing := entry.1
        let existing_from_fields := entry.2
        let merged := mergeProducts existing product
        let stepped := priceStep merged existing_from_fields product.price_text price_from_fields
        { st with products := assocSet st.products k stepped }
    | none => { st with products := st.products ++ [(k, (product, price_from_fields))] }
  else { st with unmatched := st.unmatched ++ [product] }

/-- The assembler over an already-selected card list: merged keyed products
in first-appearance order followed by the unmatched standalones. -/
def assembleProducts (cards : List Node) (manufacturer base_url : String) : List Product :=
  let final := cards.foldl (processCard manufacturer base_url) ⟨[], []⟩
  (final.products.map (fun e => e.2.1)) ++ final.unmatched

/-- parse_manufacturer_products: select the cards with the current markup
selector and run the assembler loop.  There is no alternate selector in the
source: when selCard yields nothing the loop runs over the empty list. -/
def parse_manufacturer_products (doc : Node) (manufacturer : String)
    (base_url : Option String := none) : List Product :=
  let base := pyRStrip (if truthy base_url then base_url.getD "" else DEFAULT_BASE_URL) ['/'] ++ "/"
  assembleProducts (selectAll selCard doc) manufacturer base

/-! ### Error-monad mirror of the extractors

Python raises IndexError on out-of-range list indexing.  The three
extractors that index after a guard are mirrored here with the indexing in
an error monad; the totality theorem shows the mirrors always return ok,
certifying that the guarded indexing of the pure definitions above is
faithful to the source. -/

/-- _extract_model with the split indexing in the error monad. -/
def modelScanE : List Node → Except String (Option String)
  | [] => Except.ok none
  | para :: rest =>
      let text := getText "" para
      if pyStartsWith (pyLower text) "model:" then do
        let piece ← listGetE (pySplit1 text ':') 1
        Except.ok (some (pyStrip piece))
      else modelScanE rest

def extract_modelE (card : Node) : Except String (Option String) :=
  modelScanE (selectAll selDescription card)

/-- Fold step of _extract_inventory with the cell indexing in the error
monad, mirroring the Python len-guard followed by indexing. -/
def inventoryRowE (inv : List (String × String)) (row : Node) :
    Except String (List (String × String)) :=
  let cells := rowCells row
  if cells.length ≠ 2 then Except.ok inv
  else do
    let c0 ← listGetE cells 0
    let c1 ← listGetE cells 1
    let location := pyRStrip c0 [':', ' ']
    Except.ok (if location ≠ "" then assocSet inv location c1 else inv)

def extract_inventoryE (card : Node) : Except String (List (String × String)) :=
  match selectOne selTable card with
  | none => Except.ok []
  | some t => (selectAll selTr t).foldlM inventoryRowE []

/-- Fold step of _extract_extra_fields with the split indexing in the error
monad. -/
def extraLineE (fields : List (String × String)) (para : Node) :
    Except String (List (String × String)) :=
  let text := getText "" para
  if text = "" then Except.ok fields
  else
    let lower := pyLower text
    if pyStartsWith lower "model:" then Except.ok fields
    else if lower = "log in to see pricing" then Except.ok fields
    else
      match findFieldLabel lower with
      | some label => do
          let piece ← listGetE (pySplit1 text ':') 1
          Except.ok (assocSet fields label (pyStrip piece))
      | none => Except.ok (assocSet fields text "")

def extract_extra_fieldsE (card : Node) : Except String (List (String × String)) :=
  match findInfoColumn card with
  | none => Except.ok []
  | some col => (selectAll selDescription col).foldlM extraLineE []

/-- The loop body with the three raise-capable extractors in the error monad. -/
def processCardE (manufacturer base_url : String) (st : AsmState) (card : Node) :
    Except String AsmState := do
  let _ ← extract_modelE card
  let _ ← extract_inventoryE card
  let _ ← extract_extra_fieldsE card
  Except.ok (processCard manufacturer base_url st card)

/-- parse_manufacturer_products with the error monad threaded through. -/
def parse_manufacturer_productsE (doc : Node) (manufacturer : String)
    (base_url : Option String := none) : Except String (List Product) := do
  let base := pyRStrip (if truthy base_url then base_url.getD "" else DEFAULT_BASE_URL) ['/'] ++ "/"
  let final ← (selectAll selCard doc).foldlM (processCardE manufacturer base) ⟨[], []⟩
  Except.ok ((final.products.map (fun e => e.2.1)) ++ final.unmatched)

/-! ### General helper lemmas -/

theorem charToNat_ofNat_valid {n : Nat} (h : n.isValidChar) : (Char.ofNat n).toNat = n := by
  rw [Char.ofNat, dif_pos h]
  simp [Char.ofNatAux, Char.toNat, UInt32.toNat]

theorem toLower_eq_colon {c : Char} (h : Char.toLower c = ':') : c = ':' := by
  unfold Char.toLower at h
  simp only [] at h
  by_cases hc : c.toNat ≥ 65 ∧ c.toNat ≤ 90
  · exfalso
    rw [if_pos hc] at h
    have h2 : (Char.ofNat (c.toNat + 32)).toNat = c.toNat + 32 :=
      charToNat_ofNat_valid (Or.inl (by omega))
    rw [h] at h2
    have h3 : (':' : Char).toNat = 58 := by decide
    omega
  · rw [if_neg hc] at h
    exact h

theorem assocGet_assocSet (l : List (String × α)) (k : String) (v : α) (k2 : String) :
    assocGet (assocSet l k v) k2 = if k = k2 then some v else assocGet l k2 := by
  induction l with
  | nil => by_cases h : k = k2 <;> simp [assocSet, assocGet, h]
  | cons head tail ih =>
      obtain ⟨hk, hv⟩ := head
      by_cases h1 : hk = k
      · subst h1
        by_cases h2 : hk = k2 <;> simp [assocSet, assocGet, h2]
      · by_cases h2 : hk = k2
        · subst h2
          have : ¬ k = hk := fun he => h1 he.symm
          simp [assocSet, assocGet, h1, this]
        · simp [assocSet, assocGet, h1, h2, ih]

theorem assocGet_append (l1 l2 : List (String × α)) (k : String) :
    assocGet (l1 ++ l2) k =
      match assocGet l1 k with
      | some v => some v
      | none => assocGet l2 k := by
  induction l1 with
  | nil => simp [assocGet]
  | cons head tail ih =>
      obtain ⟨hk, hv⟩ := head
      by_cases h : hk = k <;> simp [assocGet, h, ih]

/-- The value of the last pair carrying a key, if any (what a left-to-right
sequence of dict assignments leaves behind for that key). -/
def lastVal : List (String × α) → String → Option α
  | [], _ => none
  | kv :: rest, k =>
      match lastVal rest k with
      | some v => some v
      | none => if kv.1 = k then some kv.2 else none

theorem assocGet_assocUpdate (l : List (String × α)) (pairs : List (String × α)) (k : String) :
    assocGet (assocUpdate l pairs) k =
      match lastVal pairs k with
      | some v => some v
      | none => assocGet l k := by
  induction pairs generalizing l with
  | nil => simp [assocUpdate, lastVal]
  | cons head tail ih =>
      show assocGet (assocUpdate (assocSet l head.1 head.2) tail) k = _
      rw [ih]
      by_cases h : head.1 = k
      · cases hl : lastVal tail k <;> simp [lastVal, hl, h, assocGet_assocSet]
      · cases hl : lastVal tail k <;> simp [lastVal, hl, h, assocGet_assocSet]

theorem lastVal_none_of_no_key (pairs : List (String × α)) (k : String)
    (h : ∀ kv ∈ pairs, kv.1 ≠ k) : lastVal pairs k = none := by
  induction pairs with
  | nil => rfl
  | cons head tail ih =>
      have h1 : head.1 ≠ k := h head (by simp)
      have h2 := ih (fun kv hm => h kv (by simp [hm]))
      simp [lastVal, h2, h1]

/-- foldlM in the error monad agrees with foldl when every step is ok. -/
theorem foldlM_ok {σ χ : Type} {fE : σ → χ → Except String σ} {f : σ → χ → σ}
    (h : ∀ s c, fE s c = Except.ok (f s c)) (l : List χ) (s : σ) :
    l.foldlM fE s = Except.ok (l.foldl f s) := by
  induction l generalizing s with
  | nil => rfl
  | cons head tail ih =>
      simp only [List.foldlM_cons, List.foldl_cons, h]
      simpa using ih (f s head)

/-! ### C1: price precedence during merge -/

/-- C1: price precedence when a second card with the same merge key is
folded into the first-seen product, as an exhaustive case analysis.
(1) An empty incoming resolved price leaves the primary price unchanged.
(2) Else, if the primary has no usable price (absent or a login sentinel)
and the incoming price is not a login sentinel, the incoming price is
adopted and the field-derived flag becomes the incoming flag.
(2b) Else, if the primary has no usable price but the incoming price is a
login sentinel (reachable via a field-derived login text), nothing changes.
(3) Else, if the primary price was field-derived, the incoming one was not,
and the incoming one is not a login sentinel, the incoming price is adopted
and the flag cleared.  (4) In every remaining case (usable primary price
and either a non-field-derived primary, a field-derived incoming, or a
login-sentinel incoming) the primary price and flag are unchanged.  In
particular a login-gated incoming price never displaces a real price
already captured (5). -/
theorem C1_price_precedence (existing : Product) (eff : Bool)
    (incoming : Option String) (inff : Bool) :
    (truthy incoming = false →
      priceStep existing eff incoming inff = (existing, eff))
  ∧ (truthy incoming = true →
      (truthy existing.price_text = false ∨ isLoginPrice existing.price_text = true) →
      isLoginPrice incoming = false →
      priceStep existing eff incoming inff =
        ({ existing with price_text := incoming }, inff))
  ∧ (truthy incoming = true →
      (truthy existing.price_text = false ∨ isLoginPrice existing.price_text = true) →
      isLoginPrice incoming = true →
      priceStep existing eff incoming inff = (existing, eff))
  ∧ (truthy incoming = true →
      truthy existing.price_text = true → isLoginPrice existing.price_text = false →
      eff = true → inff = false → isLoginPrice incoming = false →
      priceStep existing eff incoming inff =
        ({ existing with price_text := incoming }, false))
  ∧ (truthy incoming = true →
      truthy existing.price_text = true → isLoginPrice existing.price_text = false →
      (eff = false ∨ inff = true ∨ isLoginPrice incoming = true) →
      priceStep existing eff incoming inff = (existing, eff))
  ∧ (truthy existing.price_text = true → isLoginPrice existing.price_text = false →
      isLoginPrice incoming = true →
      (priceStep existing eff incoming inff).1.price_text = existing.price_text) := by
  refine ⟨?_, ?_, ?_, ?_, ?_, ?_⟩
  · intro h1
    simp [priceStep, h1]
  · intro h1 h2 h3
    rcases h2 with h2 | h2 <;> simp [priceStep, h1, h2, h3]
  · intro h1 h2 h3
    rcases h2 with h2 | h2 <;> simp [priceStep, h1, h2, h3]
  · intro h1 h2 h3 h4 h5 h6
    simp [priceStep, h1, h2, h3, h4, h5, h6]
  · intro h1 h2 h3 h4
    rcases h4 with h4 | h4 | h4 <;> simp [priceStep, h1, h2, h3, h4]
  · intro h1 h2 h3
    have h4 : truthy incoming = true := by
      cases ht : truthy incoming
      · simp [isLoginPrice, ht] at h3
      · rfl
    simp [priceStep, h1, h2, h3, h4]

/-- Witness for C1 at concrete inputs: a field-derived 9.99 primary price is
displaced by a genuine 8.49 (rule 3), a login-sentinel incoming price over
an absent primary price changes nothing (rule 2b), and a login-gated
incoming text never displaces the real price (rule 5). -/
theorem C1_price_precedence_witness :
    priceStep { manufacturer := "M", price_text := some "$9.99" } true (some "$8.49") false =
      ({ manufacturer := "M", price_text := some "$8.49" }, false)
  ∧ priceStep { manufacturer := "M", price_text := none } false (some "Log In") true =
      ({ manufacturer := "M", price_text := none }, false)
  ∧ (priceStep { manufacturer := "M", price_text := some "$12.00" } false (some "Log In") true).1.price_text
      = some "$12.00" := by
  refine ⟨?_, ?_, ?_⟩
  · exact (C1_price_precedence { manufacturer := "M", price_text := some "$9.99" } true
      (some "$8.49") false).2.2.2.1 (by decide) (by decide) (by decide) rfl rfl (by decide)
  · exact (C1_price_precedence { manufacturer := "M", price_text := none } false
      (some "Log In") true).2.2.1 (by decide) (Or.inl (by decide)) (by decide)
  · exact (C1_price_precedence { manufacturer := "M", price_text := some "$12.00" } false
      (some "Log In") true).2.2.2.2.2 (by decide) (by decide) (by decide)

/-! ### Concrete markup fixtures -/

/-- Element constructor over a plain list of children. -/
def mkEl (tag : String) (classes : List String) (attrs : List (String × String))
    (ch : List Node) : Node :=
  .elem tag classes attrs (nlist ch)

/-- The class list of the current-markup card selector. -/
def cardClasses : List String :=
  ["col", "d-flex", "flex-column", "border", "rounded", "px-3", "py-3"]

/-! ### C10: empty-location inventory rows are dropped -/

/-- C10: during inventory extraction, a table row with exactly two cells
whose first cell is empty after stripping trailing colons and spaces
contributes no entry: the extracted inventory equals the fold over the
remaining rows. -/
theorem C10_empty_location_dropped (card t r c0 c1 : _) (rows1 rows2 : List Node)
    (h1 : selectOne selTable card = some t)
    (h2 : selectAll selTr t = rows1 ++ [r] ++ rows2)
    (h3 : rowCells r = [c0, c1])
    (h4 : pyRStrip c0 [':', ' '] = "") :
    extract_inventory card = (rows1 ++ rows2).foldl inventoryRow [] := by
  have hstep : ∀ inv, inventoryRow inv r = inv := by
    intro inv
    unfold inventoryRow
    rw [h3]
    simp [h4]
  simp only [extract_inventory, h1]
  rw [h2]
  rw [List.foldl_append, List.foldl_append, List.foldl_append]
  simp [hstep]

def c10GoodRow : Node :=
  mkEl "tr" [] [] [mkEl "td" [] [] [.text "Raleigh:"], mkEl "td" [] [] [.text "5"]]

def c10BadRow : Node :=
  mkEl "tr" [] [] [mkEl "td" [] [] [.text " : "], mkEl "td" [] [] [.text "7"]]

def c10Table : Node := mkEl "table" [] [] [c10GoodRow, c10BadRow]

def c10Card : Node := mkEl "div" cardClasses [] [c10Table]

/-- Witness for C10 at a concrete card: the row with the blank location is
dropped and only the good row contributes. -/
theorem C10_empty_location_dropped_witness :
    rowCells c10BadRow = [":", "7"]
  ∧ pyRStrip ":" [':', ' '] = ""
  ∧ extract_inventory c10Card = [("Raleigh", "5")] := by
  refine ⟨by decide, by decide, ?_⟩
  have h := C10_empty_location_dropped c10Card c10Table c10BadRow ":" "7" [c10GoodRow] []
    rfl rfl (by decide) (by decide)
  rw [h]
  decide

/-! ### C4: there is no legacy-layout fallback (corrected) -/

def c4Inner : List Node :=
  [mkEl "div" ["row"] [] [
    mkEl "div" ["col-6"] [] [
      mkEl "form" [] [] [mkEl "input" [] [("name", "item"), ("value", "ITEM9")] []],
      mkEl "p" ["productDescription", "font-weight-bold"] [] [.text "Legacy Product"]]]]

/-- A card following an older markup convention: same content, but the
wrapper division lacks the current selector's class list. -/
def c4LegacyDoc : Node := mkEl "html" [] [] [mkEl "div" ["col", "border"] [] c4Inner]

/-- The same logical product in the current markup convention. -/
def c4NewDoc : Node := mkEl "html" [] [] [mkEl "div" cardClasses [] c4Inner]

/-- C4 counterexample: the primary card selector yields zero cards on the
legacy-convention page and the parser returns no products at all, while the
equivalent current-convention page yields the product; so the claimed
fallback to a broader selector does not exist in the code. -/
theorem C4_counterexample :
    (selectAll selCard c4LegacyDoc).length = 0
  ∧ parse_manufacturer_products c4LegacyDoc "M" none = []
  ∧ (parse_manufacturer_products c4NewDoc "M" none).map (fun p => p.item_number) =
      [some "ITEM9"] := by
  refine ⟨by decide, by decide, by decide⟩

/-- C4 amended: parse_manufacturer_products has no alternate selector; when
the single current-markup selector yields zero cards the result is empty. -/
theorem C4_no_legacy_fallback (doc : Node) (m : String) (b : Option String)
    (h : (selectAll selCard doc).length = 0) :
    parse_manufacturer_products doc m b = [] := by
  have h2 : selectAll selCard doc = [] := List.length_eq_zero.mp h
  simp [parse_manufacturer_products, assembleProducts, h2]

/-- Witness for C4 at the concrete legacy-convention page. -/
theorem C4_no_legacy_fallback_witness :
    (selectAll selCard c4LegacyDoc).length = 0
  ∧ parse_manufacturer_products c4LegacyDoc "W" none = [] :=
  ⟨by decide, C4_no_legacy_fallback c4LegacyDoc "W" none (by decide)⟩

/-! ### C3: placeholder cards are not filtered out (corrected) -/

/-- A card yielding neither an identifier nor a description. -/
def c3Card : Node := mkEl "div" cardClasses [] []

def c3Doc : Node := mkEl "html" [] [] [c3Card]

/-- C3 counterexample: a selected card from which extraction yields neither
an identifier nor a description is not excluded: the assembler returns it
as a standalone empty product. -/
theorem C3_counterexample :
    extract_item_number c3Card = none
  ∧ extract_description c3Card = none
  ∧ parse_manufacturer_products c3Doc "M" none = [{ manufacturer := "M" }] := by
  refine ⟨rfl, rfl, by decide⟩

/-- C3 amended: the assembler performs no placeholder filtering: every
selected card contributes to the result; in particular a card whose record
has no truthy merge key (no identifier and no detail URL, which holds for
a card yielding neither an identifier nor a description nor an anchor) is
appended verbatim as a standalone unmatched entry. -/
theorem C3_placeholders_kept (cards : List Node) (m b : String) (card : Node)
    (h : truthy (pyOr (buildProduct m b card).1.item_number
          (buildProduct m b card).1.detail_url) = false) :
    assembleProducts (cards ++ [card]) m b =
      assembleProducts cards m b ++ [(buildProduct m b card).1] := by
  unfold assembleProducts
  rw [List.foldl_append]
  simp only [List.foldl_cons, List.foldl_nil]
  unfold processCard
  simp only [h, Bool.false_eq_true, if_false]
  simp [List.append_assoc]

/-- Witness for C3 at the concrete placeholder card. -/
theorem C3_placeholders_kept_witness :
    truthy (pyOr (buildProduct "M" "b/" c3Card).1.item_number
      (buildProduct "M" "b/" c3Card).1.detail_url) = false
  ∧ assembleProducts [c3Card] "M" "b/" = [(buildProduct "M" "b/" c3Card).1] := by
  refine ⟨by decide, ?_⟩
  have h := C3_placeholders_kept [] "M" "b/" c3Card (by decide)
  simp only [List.nil_append] at h
  rw [h]
  decide

/-! ### C5: merge refines, never erases -/

theorem lastVal_mem {pairs : List (String × α)} {k : String} {w : α}
    (h : lastVal pairs k = some w) : (k, w) ∈ pairs := by
  induction pairs with
  | nil => simp [lastVal] at h
  | cons kv rest ih =>
      simp only [lastVal] at h
      cases hl : lastVal rest k with
      | some v =>
          rw [hl] at h
          simp only [Option.some.injEq] at h
          subst h
          exact List.mem_cons_of_mem kv (ih hl)
      | none =>
          rw [hl] at h
          by_cases hk : kv.1 = k
          · rw [if_pos hk] at h
            simp only [Option.some.injEq] at h
            have : kv = (k, w) := by
              obtain ⟨a, b⟩ := kv
              simp only at hk h
              simp [hk, h]
            rw [← this]
            exact List.mem_cons_self kv rest
          · simp [if_neg hk] at h

theorem mergeScalar_populated (cur inc : Option String) (h : pyStrip (cur.getD "") ≠ "") :
    mergeScalar cur inc = cur := by
  have ht : truthy cur = true := by
    cases cur with
    | none => simp [Option.getD] at h; exact absurd (by decide : pyStrip "" = "") h
    | some s2 =>
        by_cases hs : s2 = ""
        · subst hs; exact absurd (by decide : pyStrip "" = "") (by simpa using h)
        · simp [truthy, hs]
  simp [mergeScalar, ht, h]

theorem mergeScalar_blank (cur inc : Option String)
    (h1 : truthy cur = false ∨ pyStrip (cur.getD "") = "") (h2 : truthy inc = true) :
    mergeScalar cur inc = inc := by
  rcases h1 with h1 | h1 <;> simp [mergeScalar, h1, h2]

/-- C5: when a secondary record is merged into a primary, each scalar text
field and the identifier adopt the secondary value only if the primary
value is absent or blank, and merging never replaces a populated value by
an absent or empty one: populated scalar fields are unchanged, blank ones
are refined, a truthy identifier survives, non-empty inventory and
extra-field values stay non-empty, and a truthy price stays truthy through
the full merge-plus-price step. -/
theorem C5_merge_never_erases (p s : Product) :
    ((mergeProducts p s).model = mergeScalar p.model s.model
      ∧ (mergeProducts p s).description = mergeScalar p.description s.description
      ∧ (mergeProducts p s).stock_status = mergeScalar p.stock_status s.stock_status
      ∧ (mergeProducts p s).detail_url = mergeScalar p.detail_url s.detail_url
      ∧ (mergeProducts p s).image_url = mergeScalar p.image_url s.image_url)
  ∧ (∀ cur inc : Option String, pyStrip (cur.getD "") ≠ "" → mergeScalar cur inc = cur)
  ∧ (∀ cur inc : Option String,
      (truthy cur = false ∨ pyStrip (cur.getD "") = "") → truthy inc = true →
      mergeScalar cur inc = inc)
  ∧ (truthy p.item_number = true → (mergeProducts p s).item_number = p.item_number)
  ∧ (truthy p.item_number = false → truthy s.item_number = true →
      (mergeProducts p s).item_number = s.item_number)
  ∧ (∀ k v, assocGet p.inventory_by_location k = some v → v ≠ "" →
      ∃ w, assocGet (mergeProducts p s).inventory_by_location k = some w ∧ w ≠ "")
  ∧ (∀ k v, assocGet p.extra_fields k = some v → v ≠ "" →
      ∃ w, assocGet (mergeProducts p s).extra_fields k = some w ∧ w ≠ "")
  ∧ (∀ eff inff, truthy p.price_text = true →
      truthy (priceStep (mergeProducts p s) eff s.price_text inff).1.price_text = true) := by
  refine ⟨⟨rfl, rfl, rfl, rfl, rfl⟩, ?_, ?_, ?_, ?_, ?_, ?_, ?_⟩
  · exact mergeScalar_populated
  · exact mergeScalar_blank
  · intro h
    simp [mergeProducts, h]
  · intro h1 h2
    simp [mergeProducts, h1, h2]
  · intro k v hv hne
    rw [show (mergeProducts p s).inventory_by_location =
      assocUpdate p.inventory_by_location
        (s.inventory_by_location.filter (fun kv => kv.2 ≠ "")) from rfl]
    rw [assocGet_assocUpdate]
    cases hl : lastVal (s.inventory_by_location.filter (fun kv => kv.2 ≠ "")) k with
    | some w =>
        refine ⟨w, rfl, ?_⟩
        have hm := lastVal_mem hl
        have := List.of_mem_filter hm
        simpa using this
    | none => exact ⟨v, hv, hne⟩
  · intro k v hv hne
    rw [show (mergeProducts p s).extra_fields =
      assocUpdate p.extra_fields
        (s.extra_fields.filter (fun kv => kv.2 ≠ "" || !hasKey p.extra_fields kv.1)) from rfl]
    rw [assocGet_assocUpdate]
    cases hl : lastVal (s.extra_fields.filter
        (fun kv => kv.2 ≠ "" || !hasKey p.extra_fields kv.1)) k with
    | some w =>
        refine ⟨w, rfl, ?_⟩
        have hm := lastVal_mem hl
        have hpred := List.of_mem_filter hm
        have hk : hasKey p.extra_fields k = true := by
          simp [hasKey, hv]
        simp only [hk, Bool.not_true, Bool.or_false] at hpred
        simpa using hpred
    | none => exact ⟨v, hv, hne⟩
  · intro eff inff hp
    have hm : (mergeProducts p s).price_text = p.price_text := rfl
    simp only [priceStep]
    split_ifs with h1 h2 h3 h4 <;> simp_all

def c5P : Product :=
  { manufacturer := "M", item_number := some "I1", model := some "M1",
    description := some "  ", price_text := some "$1.00",
    inventory_by_location := [("Raleigh", "5")], extra_fields := [("Dealer", "$9")] }

def c5S : Product :=
  { manufacturer := "M", item_number := some "I2", model := some "MX",
    description := some "D2", price_text := some "Log In",
    inventory_by_location := [("Raleigh", "")], extra_fields := [("Dealer", "")] }

/-- Witness for C5 at concrete records: a populated model resists an
incoming value, a blank description adopts one, the identifier survives,
non-empty inventory and extra values stay non-empty against empty incoming
ones, and the captured price stays truthy against a login-gated incoming
text. -/
theorem C5_merge_never_erases_witness :
    mergeScalar (some "M1") (some "MX") = some "M1"
  ∧ mergeScalar (some "  ") (some "D2") = some "D2"
  ∧ (mergeProducts c5P c5S).item_number = c5P.item_number
  ∧ (∃ w, assocGet (mergeProducts c5P c5S).inventory_by_location "Raleigh" = some w ∧ w ≠ "")
  ∧ (∃ w, assocGet (mergeProducts c5P c5S).extra_fields "Dealer" = some w ∧ w ≠ "")
  ∧ truthy (priceStep (mergeProducts c5P c5S) false c5S.price_text false).1.price_text = true := by
  have h := C5_merge_never_erases c5P c5S
  exact ⟨h.2.1 (some "M1") (some "MX") (by decide),
    h.2.2.1 (some "  ") (some "D2") (Or.inr (by decide)) (by decide),
    h.2.2.2.1 (by decide),
    h.2.2.2.2.2.1 "Raleigh" "5" (by decide) (by decide),
    h.2.2.2.2.2.2.1 "Dealer" "$9" (by decide) (by decide),
    h.2.2.2.2.2.2.2 false false (by decide)⟩

/-! ### C6: slug idempotence -/

/-- Adjacent characters are not both underscores. -/
def underscoreApart (a b : Char) : Prop := ¬(a = '_' ∧ b = '_')

theorem mem_collapseRuns {c : Char} :
    ∀ (l : List Char) (b : Bool), c ∈ collapseRuns b l → isSlugChar c = true ∨ c = '_' := by
  intro l
  induction l with
  | nil => intro b h; simp [collapseRuns] at h
  | cons d rest ih =>
      intro b h
      by_cases hd : isSlugChar d
      · rw [collapseRuns, if_pos hd] at h
        rcases List.mem_cons.mp h with h | h
        · exact Or.inl (h ▸ hd)
        · exact ih false h
      · rw [collapseRuns, if_neg hd] at h
        cases b with
        | true => exact ih true (by simpa using h)
        | false =>
            simp only [Bool.false_eq_true, if_false] at h
            rcases List.mem_cons.mp h with h | h
            · exact Or.inr h
            · exact ih true h

theorem chain_collapseRuns :
    ∀ (l : List Char) (b : Bool), List.Chain' underscoreApart (collapseRuns b l)
      ∧ (b = true → (collapseRuns b l).head? ≠ some '_') := by
  intro l
  induction l with
  | nil => intro b; simp [collapseRuns]
  | cons d rest ih =>
      intro b
      by_cases hd : isSlugChar d
      · rw [collapseRuns, if_pos hd]
        have hdu : d ≠ '_' := by
          intro he
          subst he
          exact absurd hd (by decide)
        refine ⟨List.chain'_cons'.mpr ⟨fun y hy => fun ⟨h1, _⟩ => hdu h1, (ih false).1⟩, ?_⟩
        intro _
        simp [hdu]
      · rw [collapseRuns, if_neg hd]
        cases b with
        | true => exact ⟨(ih true).1, fun _ => (ih true).2 rfl⟩
        | false =>
            simp only [Bool.false_eq_true, if_false]
            refine ⟨List.chain'_cons'.mpr ⟨?_, (ih true).1⟩, ?_⟩
            · intro y hy ⟨_, hy2⟩
              have := (ih true).2 rfl
              cases hh : (collapseRuns true rest).head? with
              | none => rw [hh] at hy; simp at hy
              | some z =>
                  rw [hh] at hy
                  simp only [Option.mem_some_iff] at hy
                  subst hy
                  rw [hy2] at hh
                  exact this hh
            · intro h
              simp at h

theorem head?_dropWhile_false {p : Char → Bool} :
    ∀ {l : List Char} {c : Char}, (l.dropWhile p).head? = some c → p c = false := by
  intro l
  induction l with
  | nil => intro c h; simp [List.dropWhile] at h
  | cons d rest ih =>
      intro c h
      by_cases hd : p d
      · rw [List.dropWhile_cons_of_pos hd] at h
        exact ih h
      · rw [List.dropWhile_cons_of_neg hd] at h
        simp only [List.head?_cons, Option.some.injEq] at h
        subst h
        simpa using hd

theorem dropWhile_eq_self_of_all {p : Char → Bool} {l : List Char}
    (h : ∀ c ∈ l, p c = false) : l.dropWhile p = l := by
  cases l with
  | nil => rfl
  | cons d rest => exact List.dropWhile_cons_of_neg (by simp [h d (by simp)])

theorem trimBy_eq_self_of_all {p : Char → Bool} {l : List Char}
    (h : ∀ c ∈ l, p c = false) : trimBy p l = l := by
  unfold trimBy
  rw [dropWhile_eq_self_of_all h,
      dropWhile_eq_self_of_all (fun c hc => h c (List.mem_reverse.mp hc)),
      List.reverse_reverse]

theorem trimBy_eq_self_of_ends {p : Char → Bool} {l : List Char}
    (h1 : ∀ c, l.head? = some c → p c = false)
    (h2 : ∀ c, l.getLast? = some c → p c = false) : trimBy p l = l := by
  unfold trimBy
  have e1 : l.dropWhile p = l := by
    cases hl : l with
    | nil => rfl
    | cons d rest =>
        exact List.dropWhile_cons_of_neg (by simp [h1 d (by rw [hl]; rfl)])
  rw [e1]
  have e2 : l.reverse.dropWhile p = l.reverse := by
    cases hl : l.reverse with
    | nil => rfl
    | cons d rest =>
        refine List.dropWhile_cons_of_neg ?_
        have : l.getLast? = some d := by
          rw [← List.head?_reverse, hl]
          rfl
        simp [h2 d this]
  rw [e2, List.reverse_reverse]

theorem mem_trimBy {p : Char → Bool} {l : List Char} {c : Char}
    (h : c ∈ trimBy p l) : c ∈ l := by
  unfold trimBy at h
  rw [List.mem_reverse] at h
  have h2 := (List.dropWhile_suffix p).sublist.mem h
  rw [List.mem_reverse] at h2
  exact (List.dropWhile_suffix p).sublist.mem h2

theorem chain_flip_of_chain {l : List Char} (h : List.Chain' underscoreApart l) :
    List.Chain' (flip underscoreApart) l :=
  h.imp (fun _ _ hab => fun ⟨h1, h2⟩ => hab ⟨h2, h1⟩)

theorem chain_trimBy {p : Char → Bool} {l : List Char}
    (h : List.Chain' underscoreApart l) :
    List.Chain' underscoreApart (trimBy p l) := by
  unfold trimBy
  have h1 : List.Chain' underscoreApart (l.dropWhile p) :=
    h.suffix (List.dropWhile_suffix p)
  have h2 : List.Chain' underscoreApart (l.dropWhile p).reverse :=
    List.chain'_reverse.mpr (chain_flip_of_chain h1)
  have h3 : List.Chain' underscoreApart ((l.dropWhile p).reverse.dropWhile p) :=
    h2.suffix (List.dropWhile_suffix p)
  exact List.chain'_reverse.mpr (chain_flip_of_chain h3)

theorem head?_trimBy_false {p : Char → Bool} {l : List Char} {c : Char}
    (h : (trimBy p l).head? = some c) : p c = false := by
  unfold trimBy at h
  rw [List.head?_reverse] at h
  obtain ⟨t, ht⟩ := List.dropWhile_suffix (l := (l.dropWhile p).reverse) p
  have hB : ((l.dropWhile p).reverse.dropWhile p).getLast? = some c := h
  have : (t ++ (l.dropWhile p).reverse.dropWhile p).getLast? = some c := by
    rw [List.getLast?_append, hB]
    rfl
  rw [ht] at this
  rw [List.getLast?_reverse] at this
  exact head?_dropWhile_false this

theorem getLast?_trimBy_false {p : Char → Bool} {l : List Char} {c : Char}
    (h : (trimBy p l).getLast? = some c) : p c = false := by
  unfold trimBy at h
  rw [List.getLast?_reverse] at h
  exact head?_dropWhile_false h

theorem collapse_fixed :
    ∀ (l : List Char) (b : Bool), (∀ c ∈ l, isSlugChar c = true ∨ c = '_') →
      List.Chain' underscoreApart l → (b = true → l.head? ≠ some '_') →
      collapseRuns b l = l := by
  intro l
  induction l with
  | nil => intro b _ _ _; rfl
  | cons d rest ih =>
      intro b hmem hchain hhead
      by_cases hd : isSlugChar d
      · rw [collapseRuns, if_pos hd]
        rw [ih false (fun c hc => hmem c (by simp [hc])) hchain.tail (by simp)]
      · have hdu : d = '_' := by
          rcases hmem d (by simp) with h | h
          · exact absurd h hd
          · exact h
        cases b with
        | true =>
            exfalso
            refine hhead rfl ?_
            rw [hdu]
            rfl
        | false =>
            rw [collapseRuns, if_neg hd]
            simp only [Bool.false_eq_true, if_false]
            have htail : collapseRuns true rest = rest := by
              refine ih true (fun c hc => hmem c (by simp [hc])) hchain.tail ?_
              intro _ hh
              have hr := (List.chain'_cons'.mp hchain).1
              cases hrest : rest.head? with
              | none => rw [hrest] at hh; exact Option.noConfusion hh
              | some z =>
                  rw [hrest] at hh
                  have hz : z = '_' := by
                    simpa using hh
                  exact hr z (by rw [hrest]; rfl) ⟨hdu, hz⟩
            rw [htail, hdu]

theorem slug_toNat_facts {c : Char} (h : isSlugChar c = true ∨ c = '_') :
    48 ≤ c.toNat ∧ (91 ≤ c.toNat ∨ c.toNat ≤ 64) := by
  rcases h with h | h
  · simp only [isSlugChar, Bool.or_eq_true, Bool.and_eq_true, decide_eq_true_eq] at h
    rcases h with ⟨h1, h2⟩ | ⟨h1, h2⟩
    · rw [Char.le_def] at h1 h2
      have l1 : 97 ≤ c.toNat := UInt32.le_toNat_of_le (by decide) h1
      have l2 : c.toNat ≤ 122 := UInt32.toNat_le_of_le (by decide) h2
      omega
    · rw [Char.le_def] at h1 h2
      have l1 : 48 ≤ c.toNat := UInt32.le_toNat_of_le (by decide) h1
      have l2 : c.toNat ≤ 57 := UInt32.toNat_le_of_le (by decide) h2
      omega
  · subst h
    decide

theorem toLower_fixed_of_slug {c : Char} (h : isSlugChar c = true ∨ c = '_') :
    Char.toLower c = c := by
  have hf := (slug_toNat_facts h).2
  unfold Char.toLower
  rw [if_neg]
  omega

theorem map_eq_self_of_fixed {f : Char → Char} :
    ∀ {l : List Char}, (∀ c ∈ l, f c = c) → l.map f = l
  | [], _ => rfl
  | c :: rest, h => by
      simp only [List.map_cons, List.cons.injEq]
      exact ⟨h c (by simp), map_eq_self_of_fixed (fun d hd => h d (by simp [hd]))⟩

theorem pyIsSpace_false_of_slug {c : Char} (h : isSlugChar c = true ∨ c = '_') :
    pyIsSpace c = false := by
  have hf := (slug_toNat_facts h).1
  simp only [pyIsSpace, Bool.or_eq_false_iff, beq_eq_false_iff_ne, ne_eq]
  refine ⟨⟨⟨⟨⟨?_, ?_⟩, ?_⟩, ?_⟩, ?_⟩, ?_⟩ <;>
    · intro he
      subst he
      revert hf
      decide

/-- C6: slugify_key is idempotent: re-slugging a slug returns it unchanged,
because a slug consists of lowercase alphanumerics and isolated interior
underscores (or is the fallback token, itself a fixed point). -/
theorem C6_slug_idempotent (x : String) : slugify_key (slugify_key x) = slugify_key x := by
  have main : ∀ s : String, slugify_key (slugify_key s) = slugify_key s := by
    intro s
    by_cases hr : (stripUnderscores (collapseRuns false
        ((trimBy pyIsSpace s.data).map Char.toLower))).isEmpty
    · have hx : slugify_key s = "value" := by
        unfold slugify_key
        rw [if_pos hr]
      rw [hx]
      decide
    · set r := stripUnderscores (collapseRuns false
        ((trimBy pyIsSpace s.data).map Char.toLower)) with hrdef
      have hx : slugify_key s = String.mk r := by
        unfold slugify_key
        rw [← hrdef, if_neg hr]
      have hmem : ∀ c ∈ r, isSlugChar c = true ∨ c = '_' := by
        intro c hc
        exact mem_collapseRuns _ false (mem_trimBy (hrdef ▸ hc))
      have hchain : List.Chain' underscoreApart r :=
        chain_trimBy (chain_collapseRuns _ false).1
      have hdata : (String.mk r).data = r := rfl
      have step1 : trimBy pyIsSpace r = r :=
        trimBy_eq_self_of_all (fun c hc => pyIsSpace_false_of_slug (hmem c hc))
      have step2 : r.map Char.toLower = r :=
        map_eq_self_of_fixed (fun c hc => toLower_fixed_of_slug (hmem c hc))
      have step3 : collapseRuns false r = r :=
        collapse_fixed r false hmem hchain (by simp)
      have step4 : stripUnderscores r = r := by
        refine trimBy_eq_self_of_ends ?_ ?_
        · intro c hc
          simpa using head?_trimBy_false (p := fun c => c == '_') (hrdef ▸ hc)
        · intro c hc
          simpa using getLast?_trimBy_false (p := fun c => c == '_') (hrdef ▸ hc)
      rw [hx]
      unfold slugify_key
      rw [hdata, step1, step2, step3, step4]
      rw [if_neg (by simpa using hr)]
  exact main x

/-! ### Flattening machinery shared by the projection claims -/

/-- The nine base entries of Product.as_flat_dict. -/
def baseRow (p : Product) : List (String × String) :=
  [("collected_at", p.collected_at),
   ("manufacturer", pyOrStr p.manufacturer ""),
   ("item_number", (p.item_number.getD "")),
   ("model", (p.model.getD "")),
   ("description", (p.description.getD "")),
   ("price_text", (p.price_text.getD "")),
   ("stock_status", (p.stock_status.getD "")),
   ("detail_url", (p.detail_url.getD "")),
   ("image_url", (p.image_url.getD ""))]

/-- The preferred-order base field names. -/
def baseFieldNames : List String :=
  ["collected_at", "manufacturer", "item_number", "model", "description",
   "price_text", "stock_status", "detail_url", "image_url"]

/-- The inventory rows written by as_flat_dict, in write order. -/
def invPairs (p : Product) : List (String × String) :=
  (sortPairs p.inventory_by_location).map
    (fun kv => ("inventory_" ++ slugify_key kv.1, kv.2))

/-- The extra-field rows written by as_flat_dict, in write order. -/
def infoPairs (p : Product) : List (String × String) :=
  (sortPairs p.extra_fields).map
    (fun kv => ("info_" ++ slugify_key kv.1, kv.2))

theorem as_flat_dict_eq (p : Product) :
    as_flat_dict p = assocUpdate (assocUpdate (baseRow p) (invPairs p)) (infoPairs p) := by
  unfold as_flat_dict baseRow invPairs infoPairs assocUpdate
  rw [List.foldl_map, List.foldl_map]

theorem stringExt {a b : String} (h : a.data = b.data) : a = b := by
  cases a
  cases b
  exact congrArg String.mk h

theorem prefix_append_ne {pre key : String} (h : pyStartsWith key pre = false)
    (s : String) : pre ++ s ≠ key := by
  intro he
  have htrue : pyStartsWith (pre ++ s) pre = true := by
    unfold pyStartsWith
    rw [String.data_append]
    exact List.isPrefixOf_iff_prefix.mpr (List.prefix_append _ _)
  rw [he] at htrue
  rw [h] at htrue
  exact Bool.noConfusion htrue

theorem append_left_cancel {pre a b : String} (h : pre ++ a = pre ++ b) : a = b := by
  have h2 := congrArg String.data h
  rw [String.data_append, String.data_append] at h2
  exact stringExt (List.append_cancel_left h2)

theorem info_ne_inv (s t : String) : "info_" ++ s ≠ "inventory_" ++ t := by
  intro h
  have h2 := congrArg String.data h
  rw [String.data_append, String.data_append] at h2
  have e1 : "info_".data = ['i', 'n', 'f', 'o', '_'] := rfl
  have e2 : "inventory_".data = ['i', 'n', 'v', 'e', 'n', 't', 'o', 'r', 'y', '_'] := rfl
  rw [e1, e2] at h2
  simp at h2

theorem pyOrStr_empty (a : String) : pyOrStr a "" = a := by
  unfold pyOrStr
  by_cases h : a = "" <;> simp [h]

theorem lastVal_some_of_mem {pairs : List (String × α)} {k : String} {v : α}
    (h : (k, v) ∈ pairs) : ∃ w, lastVal pairs k = some w := by
  induction pairs with
  | nil => simp at h
  | cons kv rest ih =>
      rcases List.mem_cons.mp h with h | h
      · cases hl : lastVal rest k with
        | some w => exact ⟨w, by simp [lastVal, hl]⟩
        | none =>
            refine ⟨v, ?_⟩
            rw [← h]
            simp [lastVal, hl]
      · obtain ⟨w, hw⟩ := ih h
        exact ⟨w, by simp [lastVal, hw]⟩

theorem lastVal_of_nodup {pairs : List (String × α)}
    (hnd : (pairs.map Prod.fst).Nodup) {k : String} {v : α}
    (h : (k, v) ∈ pairs) : lastVal pairs k = some v := by
  induction pairs with
  | nil => simp at h
  | cons kv rest ih =>
      simp only [List.map_cons, List.nodup_cons] at hnd
      rcases List.mem_cons.mp h with h | h
      · have hk : kv.1 = k := by rw [← h]
        have hnin : ∀ kv2 ∈ rest, kv2.1 ≠ k := by
          intro kv2 hm he
          exact hnd.1 (hk ▸ he ▸ List.mem_map_of_mem Prod.fst hm)
        have hl : lastVal rest k = none := lastVal_none_of_no_key rest k hnin
        rw [← h]
        simp [lastVal, hl]
      · have := ih hnd.2 h
        simp [lastVal, this]

theorem insertPair_perm (x : String × String) (l : List (String × String)) :
    (insertPair x l).Perm (x :: l) := by
  induction l with
  | nil => exact List.Perm.refl _
  | cons y rest ih =>
      unfold insertPair
      by_cases h : pairLe x y
      · rw [if_pos h]
      · rw [if_neg h]
        exact (List.Perm.cons y ih).trans (List.Perm.swap x y rest)

theorem sortPairs_perm (l : List (String × String)) : (sortPairs l).Perm l := by
  induction l with
  | nil => exact List.Perm.refl _
  | cons x rest ih =>
      unfold sortPairs
      exact (insertPair_perm x (sortPairs rest)).trans (List.Perm.cons x ih)

theorem keys_assocSet_mem {l : List (String × α)} {k : String} {v : α} {k2 : String}
    (h : k2 ∈ (assocSet l k v).map Prod.fst) : k2 ∈ l.map Prod.fst ∨ k2 = k := by
  induction l with
  | nil => simp [assocSet] at h; exact Or.inr h
  | cons kv rest ih =>
      unfold assocSet at h
      by_cases hk : kv.1 = k
      · rw [if_pos hk] at h
        simp only [List.map_cons, List.mem_cons] at h
        rcases h with h | h
        · exact Or.inl (by simp [h])
        · exact Or.inl (by simp [h])
      · rw [if_neg hk] at h
        simp only [List.map_cons, List.mem_cons] at h
        rcases h with h | h
        · exact Or.inl (by simp [h])
        · rcases ih h with h2 | h2
          · exact Or.inl (by simp [h2])
          · exact Or.inr h2

theorem keys_assocUpdate_mem {pairs l : List (String × α)} {k2 : String}
    (h : k2 ∈ (assocUpdate l pairs).map Prod.fst) :
    k2 ∈ l.map Prod.fst ∨ k2 ∈ pairs.map Prod.fst := by
  induction pairs generalizing l with
  | nil => exact Or.inl h
  | cons kv rest ih =>
      have h2 : k2 ∈ (assocUpdate (assocSet l kv.1 kv.2) rest).map Prod.fst := h
      rcases ih h2 with h3 | h3
      · rcases keys_assocSet_mem h3 with h4 | h4
        · exact Or.inl h4
        · exact Or.inr (by simp [h4])
      · exact Or.inr (by simp [h3])

/-- Base entries survive the inventory and info writes: the written keys all
carry a prefix no base key has. -/
theorem assocGet_flat_base (p : Product) (K : String)
    (h1 : pyStartsWith K "inventory_" = false) (h2 : pyStartsWith K "info_" = false) :
    assocGet (as_flat_dict p) K = assocGet (baseRow p) K := by
  have hinfo : lastVal (infoPairs p) K = none := by
    refine lastVal_none_of_no_key _ _ ?_
    intro kv hm
    obtain ⟨kv2, _, he⟩ := List.mem_map.mp hm
    rw [← he]
    exact prefix_append_ne h2 _
  have hinv : lastVal (invPairs p) K = none := by
    refine lastVal_none_of_no_key _ _ ?_
    intro kv hm
    obtain ⟨kv2, _, he⟩ := List.mem_map.mp hm
    rw [← he]
    exact prefix_append_ne h1 _
  rw [as_flat_dict_eq, assocGet_assocUpdate, hinfo, assocGet_assocUpdate, hinv]

/-! ### C7: flattening projection (corrected) -/

def pC7 : Product :=
  { manufacturer := "ExampleCo",
    inventory_by_location := [("Raleigh!", "1"), ("Raleigh?", "2")] }

/-- C7 counterexample: two distinct locations share the slug "raleigh"; the
later key in sort order wins the flattened entry, so the entry named after
the first key carries the other value. -/
theorem C7_counterexample :
    slugify_key "Raleigh!" = "raleigh"
  ∧ slugify_key "Raleigh?" = "raleigh"
  ∧ assocGet pC7.inventory_by_location "Raleigh!" = some "1"
  ∧ assocGet (as_flat_dict pC7) ("inventory_" ++ slugify_key "Raleigh!") = some "2" := by
  refine ⟨by decide, by decide, by decide, by decide⟩

/-- C7 amended: the flattened row's manufacturer entry always equals the
product's manufacturer verbatim, and every inventory key k yields an entry
named inventory_ followed by slugify(k) whose value equals the key's value
whenever the location keys are distinct and slugify is injective on them
(when two keys share a slug, the write of the greatest key in sort order
wins instead). -/
theorem C7_flatten_projection (p : Product)
    (hnd : (p.inventory_by_location.map Prod.fst).Nodup)
    (hinj : ∀ k1 ∈ p.inventory_by_location.map Prod.fst,
      ∀ k2 ∈ p.inventory_by_location.map Prod.fst,
      slugify_key k1 = slugify_key k2 → k1 = k2) :
    assocGet (as_flat_dict p) "manufacturer" = some p.manufacturer
  ∧ (∀ k v, (k, v) ∈ p.inventory_by_location →
      assocGet (as_flat_dict p) ("inventory_" ++ slugify_key k) = some v) := by
  constructor
  · rw [assocGet_flat_base p "manufacturer" (by decide) (by decide)]
    simp [baseRow, assocGet, pyOrStr_empty]
  · intro k v hm
    have hinfo : lastVal (infoPairs p) ("inventory_" ++ slugify_key k) = none := by
      refine lastVal_none_of_no_key _ _ ?_
      intro kv hm2
      obtain ⟨kv2, _, he⟩ := List.mem_map.mp hm2
      rw [← he]
      exact info_ne_inv _ _
    have hsortmem : (k, v) ∈ sortPairs p.inventory_by_location :=
      (sortPairs_perm p.inventory_by_location).mem_iff.mpr hm
    have hmem2 : ("inventory_" ++ slugify_key k, v) ∈ invPairs p := by
      exact List.mem_map.mpr ⟨(k, v), hsortmem, rfl⟩
    have hndmangled : ((invPairs p).map Prod.fst).Nodup := by
      have e : (invPairs p).map Prod.fst =
          ((sortPairs p.inventory_by_location).map Prod.fst).map
            (fun k2 => "inventory_" ++ slugify_key k2) := by
        unfold invPairs
        rw [List.map_map, List.map_map]
        rfl
      rw [e]
      have hperm : ((sortPairs p.inventory_by_location).map Prod.fst).Perm
          (p.inventory_by_location.map Prod.fst) :=
        (sortPairs_perm p.inventory_by_location).map Prod.fst
      have hnd2 : ((sortPairs p.inventory_by_location).map Prod.fst).Nodup :=
        hperm.nodup_iff.mpr hnd
      refine hnd2.map_on ?_
      intro x hx y hy he
      exact hinj x (hperm.mem_iff.mp hx) y (hperm.mem_iff.mp hy)
        (append_left_cancel he)
    have hinv : lastVal (invPairs p) ("inventory_" ++ slugify_key k) = some v :=
      lastVal_of_nodup hndmangled hmem2
    rw [as_flat_dict_eq, assocGet_assocUpdate, hinfo, assocGet_assocUpdate, hinv]

def c7P : Product :=
  { manufacturer := "ExampleCo",
    inventory_by_location := [("Raleigh", "12"), ("Charlotte", "5")] }

/-- Witness for C7 at a concrete product with distinct, non-colliding
location keys. -/
theorem C7_flatten_projection_witness :
    assocGet (as_flat_dict c7P) "manufacturer" = some "ExampleCo"
  ∧ assocGet (as_flat_dict c7P) ("inventory_" ++ slugify_key "Raleigh") = some "12"
  ∧ assocGet (as_flat_dict c7P) ("inventory_" ++ slugify_key "Charlotte") = some "5" := by
  have h := C7_flatten_projection c7P (by decide) (by decide)
  exact ⟨h.1, h.2 "Raleigh" "12" (by decide), h.2 "Charlotte" "5" (by decide)⟩

/-! ### C9: the flattened row always carries all nine base keys -/

/-- C9: for every Product, all nine base keys are present in the flattened
row, each absent optional field appearing as the empty string, and every
other key of the row is an inventory_ or info_ key. -/
theorem C9_flat_base_keys (p : Product) :
    assocGet (as_flat_dict p) "collected_at" = some p.collected_at
  ∧ assocGet (as_flat_dict p) "manufacturer" = some p.manufacturer
  ∧ assocGet (as_flat_dict p) "item_number" = some (p.item_number.getD "")
  ∧ assocGet (as_flat_dict p) "model" = some (p.model.getD "")
  ∧ assocGet (as_flat_dict p) "description" = some (p.description.getD "")
  ∧ assocGet (as_flat_dict p) "price_text" = some (p.price_text.getD "")
  ∧ assocGet (as_flat_dict p) "stock_status" = some (p.stock_status.getD "")
  ∧ assocGet (as_flat_dict p) "detail_url" = some (p.detail_url.getD "")
  ∧ assocGet (as_flat_dict p) "image_url" = some (p.image_url.getD "")
  ∧ (∀ kv ∈ as_flat_dict p, kv.1 ∈ baseFieldNames
      ∨ (∃ s, kv.1 = "inventory_" ++ s) ∨ (∃ s, kv.1 = "info_" ++ s)) := by
  refine ⟨?_, ?_, ?_, ?_, ?_, ?_, ?_, ?_, ?_, ?_⟩
  · rw [assocGet_flat_base p "collected_at" (by decide) (by decide)]
    simp [baseRow, assocGet]
  · rw [assocGet_flat_base p "manufacturer" (by decide) (by decide)]
    simp [baseRow, assocGet, pyOrStr_empty]
  · rw [assocGet_flat_base p "item_number" (by decide) (by decide)]
    simp [baseRow, assocGet]
  · rw [assocGet_flat_base p "model" (by decide) (by decide)]
    simp [baseRow, assocGet]
  · rw [assocGet_flat_base p "description" (by decide) (by decide)]
    simp [baseRow, assocGet]
  · rw [assocGet_flat_base p "price_text" (by decide) (by decide)]
    simp [baseRow, assocGet]
  · rw [assocGet_flat_base p "stock_status" (by decide) (by decide)]
    simp [baseRow, assocGet]
  · rw [assocGet_flat_base p "detail_url" (by decide) (by decide)]
    simp [baseRow, assocGet]
  · rw [assocGet_flat_base p "image_url" (by decide) (by decide)]
    simp [baseRow, assocGet]
  · intro kv hm
    have hk : kv.1 ∈ (as_flat_dict p).map Prod.fst := List.mem_map_of_mem Prod.fst hm
    rw [as_flat_dict_eq] at hk
    rcases keys_assocUpdate_mem hk with h | h
    · rcases keys_assocUpdate_mem h with h2 | h2
      · left
        simp only [baseRow, List.map_cons, List.map_nil, List.mem_cons] at h2
        simp only [baseFieldNames, List.mem_cons]
        tauto
      · right
        left
        obtain ⟨kv2, hm2, he⟩ := List.mem_map.mp h2
        obtain ⟨kv3, _, he3⟩ := List.mem_map.mp hm2
        rw [← he3] at he
        exact ⟨slugify_key kv3.1, he.symm⟩
    · right
      right
      obtain ⟨kv2, hm2, he⟩ := List.mem_map.mp h
      obtain ⟨kv3, _, he3⟩ := List.mem_map.mp hm2
      rw [← he3] at he
      exact ⟨slugify_key kv3.1, he.symm⟩

def c9P : Product :=
  { manufacturer := "M", model := none, description := none,
    inventory_by_location := [("Raleigh", "5")], extra_fields := [("MAP", "$9")] }

/-- Witness for C9 at a concrete product: absent optional fields appear as
empty strings and every key of the row is a base, inventory_ or info_ key. -/
theorem C9_flat_base_keys_witness :
    assocGet (as_flat_dict c9P) "model" = some ""
  ∧ assocGet (as_flat_dict c9P) "manufacturer" = some "M"
  ∧ (("inventory_raleigh", "5").1 ∈ baseFieldNames
      ∨ (∃ s, ("inventory_raleigh", "5").1 = "inventory_" ++ s)
      ∨ (∃ s, ("inventory_raleigh", "5").1 = "info_" ++ s)) := by
  have h := C9_flat_base_keys c9P
  refine ⟨h.2.2.2.1, h.2.1, ?_⟩
  refine h.2.2.2.2.2.2.2.2.2 ("inventory_raleigh", "5") ?_
  decide

/-! ### C8: totality of the extraction core -/

theorem dropWhile_ne_nil_of_mem {a : Char} :
    ∀ {l : List Char}, a ∈ l → l.dropWhile (fun d => d ≠ a) ≠ [] := by
  intro l
  induction l with
  | nil => intro h; simp at h
  | cons c rest ih =>
      intro h
      by_cases hc : c = a
      · rw [List.dropWhile_cons_of_neg (by simp [hc])]
        simp
      · have h2 : a ∈ rest := by
          rcases List.mem_cons.mp h with h | h
          · exact absurd h.symm hc
          · exact h
        rw [List.dropWhile_cons_of_pos (by simpa using hc)]
        exact ih h2

theorem pySplit1_shape {s : String} (h : (':' : Char) ∈ s.data) :
    ∃ a2 b2, pySplit1 s ':' = [a2, b2] := by
  unfold pySplit1
  cases hb : s.data.dropWhile (fun d => d ≠ ':') with
  | nil => exact absurd hb (dropWhile_ne_nil_of_mem h)
  | cons x rest =>
      exact ⟨_, _, rfl⟩

theorem colon_mem_of_label {text pre : String} (hpre : (':' : Char) ∈ pre.data)
    (h : pyStartsWith (pyLower text) pre = true) : (':' : Char) ∈ text.data := by
  unfold pyStartsWith at h
  obtain ⟨t, ht⟩ := List.isPrefixOf_iff_prefix.mp h
  have hmem : (':' : Char) ∈ (pyLower text).data := by
    rw [← ht]
    exact List.mem_append.mpr (Or.inl hpre)
  have he : (pyLower text).data = text.data.map Char.toLower := rfl
  rw [he] at hmem
  obtain ⟨c, hc, he2⟩ := List.mem_map.mp hmem
  rwa [toLower_eq_colon he2] at hc

theorem modelScanE_ok (l : List Node) : modelScanE l = Except.ok (modelScan l) := by
  induction l with
  | nil => rfl
  | cons para rest ih =>
      unfold modelScanE modelScan
      by_cases h : pyStartsWith (pyLower (getText "" para)) "model:" = true
      · rw [if_pos h, if_pos h]
        have hc := colon_mem_of_label (by decide) h
        obtain ⟨a2, b2, hsplit⟩ := pySplit1_shape hc
        rw [hsplit]
        rfl
      · rw [if_neg h, if_neg h]
        exact ih

theorem inventoryRowE_ok (inv : List (String × String)) (row : Node) :
    inventoryRowE inv row = Except.ok (inventoryRow inv row) := by
  unfold inventoryRowE inventoryRow
  cases hc : rowCells row with
  | nil => simp
  | cons c0 r1 =>
      cases r1 with
      | nil => simp
      | cons c1 r2 =>
          cases r2 with
          | nil => rfl
          | cons c2 r3 => simp [List.length_cons]

theorem extraLineE_ok (fields : List (String × String)) (para : Node) :
    extraLineE fields para = Except.ok (extraLine fields para) := by
  unfold extraLineE extraLine
  by_cases h1 : getText "" para = ""
  · rw [if_pos h1, if_pos h1]
  · rw [if_neg h1, if_neg h1]
    by_cases h2 : pyStartsWith (pyLower (getText "" para)) "model:" = true
    · rw [if_pos h2, if_pos h2]
    · rw [if_neg h2, if_neg h2]
      by_cases h3 : pyLower (getText "" para) = "log in to see pricing"
      · rw [if_pos h3, if_pos h3]
      · rw [if_neg h3, if_neg h3]
        cases hf : findFieldLabel (pyLower (getText "" para)) with
        | none => rfl
        | some label =>
            obtain ⟨pl, hfind, hpl⟩ := Option.map_eq_some'.mp hf
            have hstart : pyStartsWith (pyLower (getText "" para)) pl.1 = true := by
              have := List.find?_some hfind
              simpa using this
            have hmemtable : pl ∈ fieldLabelTable := List.mem_of_find?_eq_some hfind
            have hcolonpre : (':' : Char) ∈ pl.1.data := by
              have hall : ∀ pl2 ∈ fieldLabelTable, (':' : Char) ∈ pl2.1.data := by decide
              exact hall pl hmemtable
            have hc := colon_mem_of_label hcolonpre hstart
            obtain ⟨a2, b2, hsplit⟩ := pySplit1_shape hc
            rw [hsplit]
            rfl

theorem extract_modelE_ok (card : Node) :
    extract_modelE card = Except.ok (extract_model card) :=
  modelScanE_ok _

theorem extract_inventoryE_ok (card : Node) :
    extract_inventoryE card = Except.ok (extract_inventory card) := by
  unfold extract_inventoryE extract_inventory
  cases selectOne selTable card with
  | none => rfl
  | some t => exact foldlM_ok inventoryRowE_ok _ _

theorem extract_extra_fieldsE_ok (card : Node) :
    extract_extra_fieldsE card = Except.ok (extract_extra_fields card) := by
  unfold extract_extra_fieldsE extract_extra_fields
  cases findInfoColumn card with
  | none => rfl
  | some col => exact foldlM_ok extraLineE_ok _ _

theorem processCardE_ok (m b : String) (st : AsmState) (card : Node) :
    processCardE m b st card = Except.ok (processCard m b st card) := by
  unfold processCardE
  rw [extract_modelE_ok, extract_inventoryE_ok, extract_extra_fieldsE_ok]
  rfl

/-- C8: the extraction core is total.  The error-monad mirrors of the three
extractors that index after a guard always return ok with the pure value,
the whole per-card step and page parse in the error monad always return ok,
each field extractor yields absence when its element is missing, and
inventory rows whose cell count differs from two are skipped. -/
theorem C8_extraction_total (card : Node) :
    extract_modelE card = Except.ok (extract_model card)
  ∧ extract_inventoryE card = Except.ok (extract_inventory card)
  ∧ extract_extra_fieldsE card = Except.ok (extract_extra_fields card)
  ∧ (∀ m b st, processCardE m b st card = Except.ok (processCard m b st card))
  ∧ (∀ doc m b, parse_manufacturer_productsE doc m b =
      Except.ok (parse_manufacturer_products doc m b))
  ∧ (selectOne selPrice card = none → extract_price card = none)
  ∧ (selectOne selDescriptionBold card = none → extract_description card = none)
  ∧ (selectOne selStock card = none → extract_stock card = none)
  ∧ (selectOne selTable card = none → extract_inventory card = [])
  ∧ (selectAll selDescription card = [] → extract_model card = none)
  ∧ (findInfoColumn card = none → extract_extra_fields card = [])
  ∧ (∀ b2, selectOne selImgThumb card = none → extract_image_url card b2 = none)
  ∧ (selectOne selFormInputItem card = none → selectOne selMoreInfoButton card = none →
      extract_item_number card = none)
  ∧ (∀ inv row, (rowCells row).length ≠ 2 → inventoryRow inv row = inv) := by
  refine ⟨extract_modelE_ok card, extract_inventoryE_ok card, extract_extra_fieldsE_ok card,
    fun m b st => processCardE_ok m b st card, ?_, ?_, ?_, ?_, ?_, ?_, ?_, ?_, ?_, ?_⟩
  · intro doc m b
    have hfold : ∀ (cards : List Node) (base : String) (st : AsmState),
        List.foldlM (processCardE m base) st cards =
          Except.ok (List.foldl (processCard m base) st cards) :=
      fun cards base st => foldlM_ok (fun s c => processCardE_ok m base s c) cards st
    simp only [parse_manufacturer_productsE, parse_manufacturer_products, assembleProducts]
    rw [hfold]
    rfl
  · intro h
    unfold extract_price
    rw [h]
  · intro h
    unfold extract_description
    rw [h]
  · intro h
    unfold extract_stock
    rw [h]
  · intro h
    unfold extract_inventory
    rw [h]
  · intro h
    unfold extract_model
    rw [h]
    rfl
  · intro h
    unfold extract_extra_fields
    rw [h]
  · intro b2 h
    unfold extract_image_url
    rw [h]
    rfl
  · intro h1 h2
    unfold extract_item_number
    rw [h1, h2]
    rfl
  · intro inv row hlen
    unfold inventoryRow
    cases hc : rowCells row with
    | nil => rfl
    | cons c0 r1 =>
        cases r1 with
        | nil => rfl
        | cons c1 r2 =>
            cases r2 with
            | nil =>
                exfalso
                rw [hc] at hlen
                exact hlen rfl
            | cons c2 r3 => rfl

def c8Card : Node := mkEl "div" [] [] []

def c8Row3 : Node :=
  mkEl "tr" [] [] [mkEl "td" [] [] [.text "a"], mkEl "td" [] [] [.text "b"],
    mkEl "td" [] [] [.text "c"]]

/-- Witness for C8 at concrete inputs: an empty card has every extractor
absent, the error-monad parse of a concrete page returns ok, and a
three-cell row is skipped. -/
theorem C8_extraction_total_witness :
    extract_price c8Card = none
  ∧ extract_description c8Card = none
  ∧ extract_stock c8Card = none
  ∧ extract_inventory c8Card = []
  ∧ extract_model c8Card = none
  ∧ extract_extra_fields c8Card = []
  ∧ extract_image_url c8Card "b/" = none
  ∧ extract_item_number c8Card = none
  ∧ parse_manufacturer_productsE c3Doc "M" none =
      Except.ok (parse_manufacturer_products c3Doc "M" none)
  ∧ inventoryRow [("x", "1")] c8Row3 = [("x", "1")] := by
  have h := C8_extraction_total c8Card
  refine ⟨h.2.2.2.2.2.1 rfl, h.2.2.2.2.2.2.1 rfl, h.2.2.2.2.2.2.2.1 rfl,
    h.2.2.2.2.2.2.2.2.1 rfl, h.2.2.2.2.2.2.2.2.2.1 rfl, h.2.2.2.2.2.2.2.2.2.2.1 rfl,
    h.2.2.2.2.2.2.2.2.2.2.2.1 "b/" rfl, h.2.2.2.2.2.2.2.2.2.2.2.2.1 rfl rfl,
    h.2.2.2.2.1 c3Doc "M" none, h.2.2.2.2.2.2.2.2.2.2.2.2.2 [("x", "1")] c8Row3 (by decide)⟩

/-! ### C2: dedup invariant machinery -/

theorem assocGet_mem {l : List (String × α)} {k : String} {v : α}
    (h : assocGet l k = some v) : (k, v) ∈ l := by
  induction l with
  | nil => simp [assocGet] at h
  | cons kv rest ih =>
      unfold assocGet at h
      by_cases hk : kv.1 = k
      · rw [if_pos hk] at h
        simp only [Option.some.injEq] at h
        have he : kv = (k, v) := by
          obtain ⟨a, b2⟩ := kv
          simp only at hk h
          simp [hk, h]
        rw [← he]
        exact List.mem_cons_self kv rest
      · rw [if_neg hk] at h
        exact List.mem_cons_of_mem kv (ih h)

theorem mem_assocSet {l : List (String × α)} {k : String} {v : α} {e : String × α}
    (h : e ∈ assocSet l k v) : e = (k, v) ∨ e ∈ l := by
  induction l with
  | nil =>
      simp only [assocSet] at h
      rcases List.mem_cons.mp h with h | h
      · exact Or.inl h
      · simp at h
  | cons kv rest ih =>
      unfold assocSet at h
      by_cases hk : kv.1 = k
      · rw [if_pos hk] at h
        rcases List.mem_cons.mp h with h | h
        · exact Or.inl (by rw [h, hk])
        · exact Or.inr (List.mem_cons_of_mem kv h)
      · rw [if_neg hk] at h
        rcases List.mem_cons.mp h with h | h
        · exact Or.inr (h ▸ List.mem_cons_self kv rest)
        · rcases ih h with h2 | h2
          · exact Or.inl h2
          · exact Or.inr (List.mem_cons_of_mem kv h2)

theorem assocSet_mem_of_ne {l : List (String × α)} {k : String} {v : α} {e : String × α}
    (h : e ∈ l) (hne : e.1 ≠ k) : e ∈ assocSet l k v := by
  induction l with
  | nil => simp at h
  | cons kv rest ih =>
      unfold assocSet
      by_cases hk : kv.1 = k
      · rw [if_pos hk]
        rcases List.mem_cons.mp h with h | h
        · exact absurd (h ▸ hk) hne
        · exact List.mem_cons_of_mem _ h
      · rw [if_neg hk]
        rcases List.mem_cons.mp h with h | h
        · exact h ▸ List.mem_cons_self _ _
        · exact List.mem_cons_of_mem _ (ih h)

theorem keys_assocSet_of_found {l : List (String × α)} {k : String} {v0 v : α}
    (h : assocGet l k = some v0) : (assocSet l k v).map Prod.fst = l.map Prod.fst := by
  induction l with
  | nil => simp [assocGet] at h
  | cons kv rest ih =>
      unfold assocGet at h
      unfold assocSet
      by_cases hk : kv.1 = k
      · rw [if_pos hk]
        simp
      · rw [if_neg hk] at h ⊢
        simp [ih h]

theorem assocGet_none_keys {l : List (String × α)} {k : String}
    (h : assocGet l k = none) : ∀ e ∈ l, e.1 ≠ k := by
  induction l with
  | nil => simp
  | cons kv rest ih =>
      unfold assocGet at h
      by_cases hk : kv.1 = k
      · rw [if_pos hk] at h
        exact Option.noConfusion h
      · rw [if_neg hk] at h
        intro e he
        rcases List.mem_cons.mp he with he | he
        · exact he ▸ hk
        · exact ih h e he

theorem priceStep_item (e : Product) (eff : Bool) (inc : Option String) (iff2 : Bool) :
    (priceStep e eff inc iff2).1.item_number = e.item_number := by
  simp only [priceStep]
  split_ifs <;> rfl

theorem pyOr_falsy {a b : Option String} (h : truthy (pyOr a b) = false) :
    truthy a = false ∧ truthy b = false := by
  unfold pyOr at h
  by_cases ha : truthy a
  · rw [if_pos ha] at h
    exact absurd h (by simp [ha])
  · rw [if_neg ha] at h
    exact ⟨by simpa using ha, h⟩

/-- The state transformer of one assembler-loop iteration, over the record
and flag built from the card. -/
def stepState (st : AsmState) (product : Product) (price_from_fields : Bool) : AsmState :=
  let key := pyOr product.item_number product.detail_url
  if truthy key then
    let k := key.getD ""
    match assocGet st.products k with
    | some entry =>
        let merged := priceStep (mergeProducts entry.1 product) entry.2 product.price_text
          price_from_fields
        { st with products := assocSet st.products k merged }
    | none => { st with products := st.products ++ [(k, (product, price_from_fields))] }
  else { st with unmatched := st.unmatched ++ [product] }

theorem processCard_eq_step (m base : String) (st : AsmState) (card : Node) :
    processCard m base st card =
      stepState st (buildProduct m base card).1 (buildProduct m base card).2 := rfl

/-- The loop-state invariant: keyed entry keys are distinct, a keyed entry
with a truthy identifier carries exactly its key as identifier, and
unmatched entries have falsy identifiers. -/
def StInv (st : AsmState) : Prop :=
  (st.products.map Prod.fst).Nodup
  ∧ (∀ e ∈ st.products, truthy e.2.1.item_number = true → e.2.1.item_number = some e.1)
  ∧ (∀ p ∈ st.unmatched, truthy p.item_number = false)

/-- An entry under key s whose product carries identifier s. -/
def KeyPresent (st : AsmState) (s : String) : Prop :=
  ∃ e ∈ st.products, e.1 = s ∧ e.2.1.item_number = some s

theorem item_eq_key {a b : Option String} (ha : truthy a = true) :
    a = some ((pyOr a b).getD "") := by
  unfold pyOr
  rw [if_pos ha]
  cases a with
  | none => simp [truthy] at ha
  | some s => rfl

theorem truthy_getD_ne {o : Option String} (h : truthy o = true) : o.getD "" ≠ "" := by
  cases o with
  | none => simp [truthy] at h
  | some s => simpa [truthy] using h

theorem assocGet_of_mem_nodup {l : List (String × α)}
    (hnd : (l.map Prod.fst).Nodup) {k : String} {v : α} (h : (k, v) ∈ l) :
    assocGet l k = some v := by
  induction l with
  | nil => simp at h
  | cons kv rest ih =>
      simp only [List.map_cons, List.nodup_cons] at hnd
      rcases List.mem_cons.mp h with h | h
      · unfold assocGet
        rw [if_pos (by rw [← h])]
        rw [← h]
      · have hne : kv.1 ≠ k := by
          intro he
          exact hnd.1 (he ▸ List.mem_map_of_mem Prod.fst h)
        unfold assocGet
        rw [if_neg hne]
        exact ih hnd.2 h

theorem merged_item_cases (entry1 product : Product) (eff pff : Bool) (k : String)
    (hentry : truthy entry1.item_number = true → entry1.item_number = some k)
    (hprod : truthy product.item_number = true → product.item_number = some k) :
    truthy (priceStep (mergeProducts entry1 product) eff product.price_text pff).1.item_number
        = true →
    (priceStep (mergeProducts entry1 product) eff product.price_text pff).1.item_number
        = some k := by
  rw [priceStep_item]
  have he : (mergeProducts entry1 product).item_number =
      (if !truthy entry1.item_number && truthy product.item_number then product.item_number
       else entry1.item_number) := rfl
  rw [he]
  intro ht
  by_cases h1 : truthy entry1.item_number = true
  · have hc : (!truthy entry1.item_number && truthy product.item_number) = false := by
      simp [h1]
    rw [hc] at ht ⊢
    simp only [Bool.false_eq_true, if_false] at ht ⊢
    exact hentry h1
  · by_cases h2 : truthy product.item_number = true
    · have hc : (!truthy entry1.item_number && truthy product.item_number) = true := by
        simp [h1, h2]
      rw [hc] at ht ⊢
      simp only [if_true] at ht ⊢
      exact hprod h2
    · have hc : (!truthy entry1.item_number && truthy product.item_number) = false := by
        simp [h2]
      rw [hc] at ht ⊢
      simp only [Bool.false_eq_true, if_false] at ht ⊢
      exact absurd ht h1

theorem merged_item_of_product (entry1 product : Product) (eff pff : Bool) (k : String)
    (hentry : truthy entry1.item_number = true → entry1.item_number = some k)
    (hprod : product.item_number = some k) (hk : k ≠ "") :
    (priceStep (mergeProducts entry1 product) eff product.price_text pff).1.item_number
      = some k := by
  rw [priceStep_item]
  show (if !truthy entry1.item_number && truthy product.item_number then product.item_number
    else entry1.item_number) = some k
  by_cases h1 : truthy entry1.item_number = true
  · have he := hentry h1
    have hc : (!truthy entry1.item_number && truthy product.item_number) = false := by
      simp [h1]
    rw [hc]
    simp only [Bool.false_eq_true, if_false]
    exact he
  · have h1f : truthy entry1.item_number = false := by simpa using h1
    have hpt : truthy product.item_number = true := by
      rw [hprod]
      simpa [truthy] using hk
    have hc : (!truthy entry1.item_number && truthy product.item_number) = true := by
      simp [h1f, hpt]
    rw [hc]
    simp only [if_true]
    exact hprod

theorem merged_item_of_entry (entry1 product : Product) (eff pff : Bool) (k : String)
    (h1 : entry1.item_number = some k) (hk : k ≠ "") :
    (priceStep (mergeProducts entry1 product) eff product.price_text pff).1.item_number
      = some k := by
  rw [priceStep_item]
  show (if !truthy entry1.item_number && truthy product.item_number then product.item_number
    else entry1.item_number) = some k
  have ht : truthy entry1.item_number = true := by
    rw [h1]
    simpa [truthy] using hk
  have hc : (!truthy entry1.item_number && truthy product.item_number) = false := by
    simp [ht]
  rw [hc]
  simp only [Bool.false_eq_true, if_false]
  exact h1

theorem stepState_inv {st : AsmState} (hinv : StInv st) (product : Product) (pff : Bool) :
    StInv (stepState st product pff) := by
  simp only [stepState]
  by_cases hkey : truthy (pyOr product.item_number product.detail_url) = true
  · rw [if_pos hkey]
    have hprodk : truthy product.item_number = true →
        product.item_number = some ((pyOr product.item_number product.detail_url).getD "") :=
      fun ht => item_eq_key ht
    cases hget : assocGet st.products ((pyOr product.item_number product.detail_url).getD "") with
    | some entry =>
        refine ⟨?_, ?_, hinv.2.2⟩
        · show ((assocSet st.products _ _).map Prod.fst).Nodup
          rw [keys_assocSet_of_found hget]
          exact hinv.1
        · intro e he ht
          rcases mem_assocSet he with he2 | he2
          · have hentrymem := assocGet_mem hget
            have hentryinv := hinv.2.1 _ hentrymem
            rw [he2] at ht ⊢
            exact merged_item_cases entry.1 product entry.2 pff _ hentryinv hprodk ht
          · exact hinv.2.1 e he2 ht
    | none =>
        refine ⟨?_, ?_, hinv.2.2⟩
        · show ((st.products ++ [(_, (product, pff))]).map Prod.fst).Nodup
          rw [List.map_append]
          refine List.nodup_append.mpr ⟨hinv.1, by simp, ?_⟩
          intro a ha
          simp only [List.map_cons, List.map_nil, List.mem_cons, List.not_mem_nil,
            or_false]
          intro he
          obtain ⟨e, hem, hef⟩ := List.mem_map.mp ha
          exact assocGet_none_keys hget e hem (hef.trans he)
        · intro e he ht
          rcases List.mem_append.mp he with he2 | he2
          · exact hinv.2.1 e he2 ht
          · simp only [List.mem_cons, List.not_mem_nil, or_false] at he2
            rw [he2] at ht ⊢
            exact hprodk ht
  · rw [if_neg hkey]
    refine ⟨hinv.1, hinv.2.1, ?_⟩
    intro p hp
    rcases List.mem_append.mp hp with hp2 | hp2
    · exact hinv.2.2 p hp2
    · simp only [List.mem_cons, List.not_mem_nil, or_false] at hp2
      rw [hp2]
      exact (pyOr_falsy (by simpa using hkey)).1

theorem stepState_keyPresent {st : AsmState} (hinv : StInv st) {s : String}
    (hp : KeyPresent st s) (product : Product) (pff : Bool) :
    KeyPresent (stepState st product pff) s := by
  obtain ⟨e0, he0mem, he0key, he0item⟩ := hp
  simp only [stepState]
  by_cases hkey : truthy (pyOr product.item_number product.detail_url) = true
  · rw [if_pos hkey]
    cases hget : assocGet st.products ((pyOr product.item_number product.detail_url).getD "") with
    | some entry =>
        by_cases hsk : s = (pyOr product.item_number product.detail_url).getD ""
        · have he0get : assocGet st.products s = some e0.2 := by
            have h3 : assocGet st.products e0.1 = some e0.2 := by
              refine assocGet_of_mem_nodup hinv.1 ?_
              obtain ⟨a, b2⟩ := e0
              exact he0mem
            rw [he0key] at h3
            exact h3
          have hget2 : e0.2 = entry := by
            have h4 : some entry = some e0.2 := by
              rw [← hget, ← hsk, he0get]
            simpa using h4.symm
          have hitem2 : entry.1.item_number = some s := by
            rw [← hget2]
            exact he0item
          have hks : s ≠ "" := by
            have h2 := truthy_getD_ne hkey
            rw [← hsk] at h2
            exact h2
          have hmerged := merged_item_of_entry entry.1 product entry.2 pff s hitem2 hks
          have hsetget := assocGet_assocSet st.products
            ((pyOr product.item_number product.detail_url).getD "")
            (priceStep (mergeProducts entry.1 product) entry.2 product.price_text pff)
            ((pyOr product.item_number product.detail_url).getD "")
          rw [if_pos rfl] at hsetget
          refine ⟨_, assocGet_mem hsetget, hsk.symm, ?_⟩
          exact hsk ▸ hmerged
        · refine ⟨e0, ?_, he0key, he0item⟩
          refine assocSet_mem_of_ne he0mem ?_
          rw [he0key]
          exact hsk
    | none =>
        exact ⟨e0, List.mem_append_left _ he0mem, he0key, he0item⟩
  · rw [if_neg hkey]
    exact ⟨e0, he0mem, he0key, he0item⟩

theorem stepState_keyNew {st : AsmState} (hinv : StInv st) {s : String}
    (product : Product) (pff : Bool)
    (hitem : product.item_number = some s) (hs : s ≠ "") :
    KeyPresent (stepState st product pff) s := by
  have ht : truthy product.item_number = true := by
    rw [hitem]
    simpa [truthy] using hs
  have hkeyeq : pyOr product.item_number product.detail_url = some s := by
    unfold pyOr
    rw [if_pos ht, hitem]
  have hkd : (pyOr product.item_number product.detail_url).getD "" = s := by
    rw [hkeyeq]
    rfl
  have hkey : truthy (pyOr product.item_number product.detail_url) = true := by
    rw [hkeyeq]
    simpa [truthy] using hs
  simp only [stepState]
  rw [if_pos hkey]
  cases hget : assocGet st.products ((pyOr product.item_number product.detail_url).getD "") with
  | some entry =>
      have hentryinv : truthy entry.1.item_number = true → entry.1.item_number = some s := by
        intro ht2
        have hmemE := assocGet_mem hget
        have := hinv.2.1 _ hmemE ht2
        rw [hkd] at this
        exact this
      have hmerged := merged_item_of_product entry.1 product entry.2 pff s hentryinv hitem hs
      have hsetget := assocGet_assocSet st.products
        ((pyOr product.item_number product.detail_url).getD "")
        (priceStep (mergeProducts entry.1 product) entry.2 product.price_text pff)
        ((pyOr product.item_number product.detail_url).getD "")
      rw [if_pos rfl] at hsetget
      exact ⟨_, assocGet_mem hsetget, hkd, hmerged⟩
  | none =>
      refine ⟨((pyOr product.item_number product.detail_url).getD "", (product, pff)), ?_, hkd, ?_⟩
      · exact List.mem_append_right _ (List.mem_cons_self _ _)
      · exact hitem

theorem foldl_inv_key (m base : String) :
    ∀ (cards : List Node) (st : AsmState), StInv st →
      StInv (cards.foldl (processCard m base) st)
      ∧ (∀ s, KeyPresent st s → KeyPresent (cards.foldl (processCard m base) st) s) := by
  intro cards
  induction cards with
  | nil => exact fun st h => ⟨h, fun s hp => hp⟩
  | cons c rest ih =>
      intro st h
      rw [List.foldl_cons, processCard_eq_step]
      have hstep := stepState_inv h (buildProduct m base c).1 (buildProduct m base c).2
      refine ⟨(ih _ hstep).1, ?_⟩
      intro s hp
      exact (ih _ hstep).2 s
        (stepState_keyPresent h hp (buildProduct m base c).1 (buildProduct m base c).2)

theorem foldl_key_of_mem (m base : String) :
    ∀ (cards : List Node) (st : AsmState), StInv st →
      ∀ card ∈ cards, ∀ s, extract_item_number card = some s → s ≠ "" →
        KeyPresent (cards.foldl (processCard m base) st) s := by
  intro cards
  induction cards with
  | nil => intro st _ card hmem; simp at hmem
  | cons c rest ih =>
      intro st h card hmem s hid hs
      rw [List.foldl_cons, processCard_eq_step]
      have hstep := stepState_inv h (buildProduct m base c).1 (buildProduct m base c).2
      rcases List.mem_cons.mp hmem with he | he
      · have hitem : (buildProduct m base c).1.item_number = some s := by
          have : (buildProduct m base c).1.item_number = extract_item_number c := rfl
          rw [this, ← he]
          exact hid
        exact (foldl_inv_key m base rest _ hstep).2 s
          (stepState_keyNew h (buildProduct m base c).1 (buildProduct m base c).2 hitem hs)
      · exact ih _ hstep card he s hid hs

theorem stepState_unmatched (st : AsmState) (product : Product) (pff : Bool) :
    (stepState st product pff).unmatched =
      if truthy (pyOr product.item_number product.detail_url) = true then st.unmatched
      else st.unmatched ++ [product] := by
  simp only [stepState]
  by_cases h : truthy (pyOr product.item_number product.detail_url) = true
  · rw [if_pos h, if_pos h]
    cases assocGet st.products ((pyOr product.item_number product.detail_url).getD "") <;> rfl
  · rw [if_neg h, if_neg h]

theorem foldl_unmatched (m base : String) :
    ∀ (cards : List Node) (st : AsmState),
      (cards.foldl (processCard m base) st).unmatched =
        st.unmatched ++ ((cards.filter (fun c =>
            !truthy (pyOr (buildProduct m base c).1.item_number
              (buildProduct m base c).1.detail_url))).map
          (fun c => (buildProduct m base c).1)) := by
  intro cards
  induction cards with
  | nil => intro st; simp
  | cons c rest ih =>
      intro st
      rw [List.foldl_cons, processCard_eq_step, ih, stepState_unmatched]
      by_cases h : truthy (pyOr (buildProduct m base c).1.item_number
          (buildProduct m base c).1.detail_url) = true
      · rw [if_pos h, List.filter_cons_of_neg (by simp [h])]
      · rw [if_neg h, List.filter_cons_of_pos (by simp [h])]
        simp [List.append_assoc]

theorem pairwise_falsy (l : List Product) (h : ∀ p ∈ l, truthy p.item_number = false) :
    List.Pairwise (fun p q => ¬(truthy p.item_number = true ∧ p.item_number = q.item_number)) l := by
  induction l with
  | nil => exact List.Pairwise.nil
  | cons p rest ih =>
      refine List.Pairwise.cons ?_ (ih (fun q hq => h q (List.mem_cons_of_mem p hq)))
      intro q _ hc
      obtain ⟨ht, _⟩ := hc
      rw [h p (List.mem_cons_self p rest)] at ht
      exact Bool.noConfusion ht

theorem result_pairwise {st : AsmState} (hinv : StInv st) :
    List.Pairwise (fun p q => ¬(truthy p.item_number = true ∧ p.item_number = q.item_number))
      ((st.products.map (fun e => e.2.1)) ++ st.unmatched) := by
  refine List.pairwise_append.mpr ⟨?_, ?_, ?_⟩
  · refine List.pairwise_map.mpr ?_
    have hkeys2 : List.Pairwise (fun e1 e2 => e1.1 ≠ e2.1) st.products :=
      List.pairwise_map.mp hinv.1
    refine List.Pairwise.imp_of_mem ?_ hkeys2
    intro e1 e2 h1 h2 hne hc
    obtain ⟨ht, heq⟩ := hc
    have hi1 := hinv.2.1 e1 h1 ht
    have ht2 : truthy e2.2.1.item_number = true := by
      rw [← heq]
      exact ht
    have hi2 := hinv.2.1 e2 h2 ht2
    rw [hi1, hi2] at heq
    exact hne (by simpa using heq)
  · exact pairwise_falsy _ hinv.2.2
  · intro a ha b2 hb hc
    obtain ⟨ht, heq⟩ := hc
    have hb3 := hinv.2.2 b2 hb
    rw [heq] at ht
    rw [hb3] at ht
    exact Bool.noConfusion ht

theorem filter_length_one {P : Product → Bool} {l : List Product}
    (hpw : List.Pairwise (fun a b2 => ¬(P a = true ∧ P b2 = true)) l)
    (hmem : ∃ a ∈ l, P a = true) :
    (l.filter P).length = 1 := by
  induction l with
  | nil =>
      obtain ⟨a, ha, _⟩ := hmem
      simp at ha
  | cons a rest ih =>
      obtain ⟨hhead, htail⟩ := List.pairwise_cons.mp hpw
      by_cases hP : P a = true
      · rw [List.filter_cons_of_pos hP]
        have hrest : rest.filter P = [] := by
          rw [List.filter_eq_nil_iff]
          intro b2 hb2 hPb
          exact hhead b2 hb2 ⟨hP, hPb⟩
        rw [hrest]
        rfl
      · rw [List.filter_cons_of_neg (by simpa using hP)]
        obtain ⟨a2, ha2, hPa2⟩ := hmem
        rcases List.mem_cons.mp ha2 with he | he
        · exact absurd (he ▸ hPa2) hP
        · exact ih htail ⟨a2, he, hPa2⟩

/-- The base URL the parser resolves links against. -/
def resolveBase (base_url : Option String) : String :=
  pyRStrip (if truthy base_url then base_url.getD "" else DEFAULT_BASE_URL) ['/'] ++ "/"

/-- C2: dedup invariant.  No two products of a page's result share the same
non-empty identifier; for any pair of selected cards sharing a non-empty
identifier the result holds exactly one product under that identifier; and
the result is the keyed merged products followed by one standalone entry per
keyless card (which may duplicate other entries by content). -/
theorem C2_dedup_invariant (doc : Node) (m : String) (b : Option String) :
    List.Pairwise (fun p q => ¬(truthy p.item_number = true ∧ p.item_number = q.item_number))
      (parse_manufacturer_products doc m b)
  ∧ (∀ c1 ∈ selectAll selCard doc, ∀ c2 ∈ selectAll selCard doc, ∀ s : String,
      extract_item_number c1 = some s → extract_item_number c2 = some s → s ≠ "" →
      ((parse_manufacturer_products doc m b).filter
        (fun p => p.item_number == some s)).length = 1)
  ∧ parse_manufacturer_products doc m b =
      ((selectAll selCard doc).foldl (processCard m (resolveBase b)) ⟨[], []⟩).products.map
        (fun e => e.2.1)
      ++ ((selectAll selCard doc).filter (fun c =>
            !truthy (pyOr (buildProduct m (resolveBase b) c).1.item_number
              (buildProduct m (resolveBase b) c).1.detail_url))).map
          (fun c => (buildProduct m (resolveBase b) c).1) := by
  have hassemble : parse_manufacturer_products doc m b =
      (((selectAll selCard doc).foldl (processCard m (resolveBase b)) ⟨[], []⟩).products.map
        (fun e => e.2.1))
      ++ ((selectAll selCard doc).foldl (processCard m (resolveBase b)) ⟨[], []⟩).unmatched := rfl
  have hinv0 : StInv ⟨[], []⟩ := ⟨List.nodup_nil, by simp, by simp⟩
  have hfin : StInv ((selectAll selCard doc).foldl (processCard m (resolveBase b)) ⟨[], []⟩) :=
    (foldl_inv_key m (resolveBase b) (selectAll selCard doc) ⟨[], []⟩ hinv0).1
  have hpairwise : List.Pairwise
      (fun p q => ¬(truthy p.item_number = true ∧ p.item_number = q.item_number))
      (parse_manufacturer_products doc m b) := by
    rw [hassemble]
    exact result_pairwise hfin
  refine ⟨hpairwise, ?_, ?_⟩
  · intro c1 h1 c2 h2 s hid1 hid2 hs
    have hkp := foldl_key_of_mem m (resolveBase b) (selectAll selCard doc) ⟨[], []⟩ hinv0
      c1 h1 s hid1 hs
    obtain ⟨e, hemem, hekey, heitem⟩ := hkp
    have hmemres : e.2.1 ∈ parse_manufacturer_products doc m b := by
      rw [hassemble]
      exact List.mem_append_left _ (List.mem_map_of_mem (fun e2 => e2.2.1) hemem)
    refine filter_length_one ?_ ⟨e.2.1, hmemres, by simp [heitem]⟩
    refine hpairwise.imp ?_
    intro p q hR hc
    obtain ⟨hp1, hq1⟩ := hc
    apply hR
    have hps : p.item_number = some s := by simpa using hp1
    have hqs : q.item_number = some s := by simpa using hq1
    constructor
    · rw [hps]
      simpa [truthy] using hs
    · rw [hps, hqs]
  · rw [hassemble, foldl_unmatched]
    rfl

def c2CardA : Node :=
  mkEl "div" cardClasses [] [
    mkEl "form" [] [] [mkEl "input" [] [("name", "item"), ("value", "ITEM1")] []],
    mkEl "div" ["col-6"] [] [
      mkEl "p" ["productDescription", "font-weight-bold"] [] [.text "First Listing"]]]

def c2CardB : Node :=
  mkEl "div" cardClasses [] [
    mkEl "form" [] [] [mkEl "input" [] [("name", "item"), ("value", "ITEM1")] []],
    mkEl "div" ["col-6"] [] [
      mkEl "a" ["productPrice"] [("href", "#")] [.text "$8.49"]]]

def c2Doc : Node := mkEl "html" [] [] [c2CardA, c2CardB]

/-- Witness for C2 at a concrete page: two cards carrying the same
identifier merge to exactly one product under it. -/
theorem C2_dedup_invariant_witness :
    extract_item_number c2CardA = some "ITEM1"
  ∧ extract_item_number c2CardB = some "ITEM1"
  ∧ ((parse_manufacturer_products c2Doc "M" none).filter
      (fun p => p.item_number == some "ITEM1")).length = 1 := by
  have hsel : selectAll selCard c2Doc = [c2CardA, c2CardB] := rfl
  have hmA : c2CardA ∈ selectAll selCard c2Doc := by
    rw [hsel]
    exact List.mem_cons_self _ _
  have hmB : c2CardB ∈ selectAll selCard c2Doc := by
    rw [hsel]
    exact List.mem_cons_of_mem _ (List.mem_cons_self _ _)
  exact ⟨rfl, rfl,
    (C2_dedup_invariant c2Doc "M" none).2.1 c2CardA hmA c2CardB hmB "ITEM1" rfl rfl
      (by decide)⟩
